import Mathlib

/-!
Verification of the gettext-parser core (PO/MO translation catalog codec).

This file shallowly embeds the relevant source functions of the repository
and proves or refutes the frozen claims about them.  JavaScript strings are
modelled as `List Char` (or Lean `String` where convenient), byte buffers as
`List Nat` with every element a byte value, JS objects (string-keyed maps
with insertion order and in-place overwrite) as association lists, thrown
exceptions as `Except`, and `undefined`-able fields by sentinel values noted
at each definition.
-/

namespace GtP

/-! ### JavaScript character classes and small string helpers -/

/-- The characters matched by the JS regex class `\s` (ECMAScript
WhiteSpace ∪ LineTerminator, as used by `trim` and `\s`). -/

def jsWsChar (c : Char) : Bool :=
  let n := c.toNat
  decide (n = 0x09 ∨ n = 0x0A ∨ n = 0x0B ∨ n = 0x0C ∨ n = 0x0D ∨ n = 0x20 ∨
    n = 0xA0 ∨ n = 0x1680 ∨ (0x2000 ≤ n ∧ n ≤ 0x200A) ∨ n = 0x2028 ∨
    n = 0x2029 ∨ n = 0x202F ∨ n = 0x205F ∨ n = 0x3000 ∨ n = 0xFEFF)

/-- The characters matched by the JS regex metacharacter `.` (anything that
is not a LineTerminator: LF, CR, U+2028, U+2029). -/

def jsDotChar (c : Char) : Bool :=
  let n := c.toNat
  decide (¬ (n = 0x0A ∨ n = 0x0D ∨ n = 0x2028 ∨ n = 0x2029))

/-- The "special character" class of `foldLine`:
`[\x21-\x2f0-9\x5b-\x60\x7b-\x7e]`. -/

def jsSpecialChar (c : Char) : Bool :=
  let n := c.toNat
  decide ((0x21 ≤ n ∧ n ≤ 0x2F) ∨ (0x30 ≤ n ∧ n ≤ 0x39) ∨
    (0x5B ≤ n ∧ n ≤ 0x60) ∨ (0x7B ≤ n ∧ n ≤ 0x7E))

/-! ### The regex calls inside `foldLine` (shared.ts)

`foldLine` evaluates three regexes with `exec` and keeps `match[0]`:
`/.*?\\n/`, `/.*\s+/` and `/.*[\x21-\x2f0-9\x5b-\x60\x7b-\x7e]+/`.
`exec` returns the leftmost match: it tries every start position from the
left; at a fixed start, a lazy `.*?` grows from the shortest length and a
greedy `.*` backtracks from the longest.  `.` never matches a line
terminator.  The functions below implement exactly that search order. -/

/-- At a fixed start position, the lazy body of `/.*?\\n/`: the least `k`
such that the first `k` characters are `.`-matchable and the characters at
positions `k, k+1` are `\` and `n`. -/

def lazyK : List Char → Option Nat
  | [] => none
  | c :: rest =>
    if c = '\\' ∧ rest.head? = some 'n' then some 0
    else if jsDotChar c then (lazyK rest).map (· + 1)
    else none

/-- `match[0]` of `/.*?\\n/.exec`: try start positions left to right. -/

def execLazyEscN : List Char → Option (List Char)
  | [] => none
  | t@(_ :: rest) =>
    match lazyK t with
    | some k => some (t.take (k + 2))
    | none => execLazyEscN rest

/-- Length of the maximal `.`-matchable run at the head. -/

def dotRun (t : List Char) : Nat := (t.takeWhile jsDotChar).length

/-- Greatest `k ≤ n` with `f k`, or `none`. -/

def maxSatBelow (f : Nat → Bool) : Nat → Option Nat
  | 0 => if f 0 then some 0 else none
  | n + 1 => if f (n + 1) then some (n + 1) else maxSatBelow f n

/-- At a fixed start position, `match[0]` of `/.*p+/` for a character class
`p`: the greedy `.*` backtracks from the longest `.`-run until `p` can
match, then `p+` extends maximally. -/

def greedyAt (t : List Char) (p : Char → Bool) : Option (List Char) :=
  match t with
  | [] => none
  | _ :: _ =>
    match maxSatBelow (fun k => p (t.getD k ' ')) (min (dotRun t) (t.length - 1)) with
    | some k => some (t.take (k + 1 + ((t.drop (k + 1)).takeWhile p).length))
    | none => none

/-- `match[0]` of `/.*p+/.exec`: try start positions left to right. -/

def execGreedy : List Char → (Char → Bool) → Option (List Char)
  | [], _ => none
  | t@(_ :: rest), p =>
    match greedyAt t p with
    | some m => some m
    | none => execGreedy rest p

/-! ### `foldLine` (shared.ts lines 138-175)

```
export function foldLine(str: string, maxLen = 76): string[] {
  const lines = []; const len = str.length;
  let curLine = ""; let pos = 0; let match;
  while (pos < len) {
    curLine = str.substring(pos, pos + maxLen);
    while (curLine.substring(-1) === "\\" && pos + curLine.length < len) {
      curLine += str.charAt(pos + curLine.length);
    }
    match = /.*?\\n/.exec(curLine);
    if (match) { curLine = match[0]; }
    else if (pos + curLine.length < len) {
      match = /.*\s+/.exec(curLine) || /.*[\x21-\x2f0-9\x5b-\x60\x7b-\x7e]+/.exec(curLine);
      if (match && /[^\s\x21-\x2f0-9\x5b-\x60\x7b-\x7e]/.test(match[0])) {
        curLine = match[0];
      }
    }
    lines.push(curLine); pos += curLine.length;
  }
  return lines;
}
```

Note on the inner `while`: `curLine.substring(-1)` clamps the negative
start index to `0` and so yields the *whole* of `curLine`, not its last
character.  The guard `curLine.substring(-1) === "\\"` therefore holds only
when `curLine` is exactly the one-character string `"\\"`; after a single
extension the line has two characters and the guard is false, so the loop
body runs at most once and is modelled by one conditional extension.
`str.charAt(i)` yields `""` out of range, modelled by `take 1` of the
remainder. -/

/-- `curLine` after the initial `substring(pos, pos + maxLen)`. -/

def foldCur0 (s : List Char) (maxLen pos : Nat) : List Char :=
  (s.drop pos).take maxLen

/-- `curLine` after the (at most one iteration of the) extension `while`. -/

def foldCur1 (s : List Char) (maxLen pos : Nat) : List Char :=
  let cur0 := foldCur0 s maxLen pos
  if cur0 = ['\\'] ∧ pos + cur0.length < s.length then
    cur0 ++ (s.drop (pos + cur0.length)).take 1
  else cur0

/-- `curLine` after the regex-based break-point adjustment. -/

def foldAdjust (s : List Char) (pos : Nat) (cur : List Char) : List Char :=
  match execLazyEscN cur with
  | some m => m
  | none =>
    if pos + cur.length < s.length then
      match (execGreedy cur jsWsChar).orElse (fun _ => execGreedy cur jsSpecialChar) with
      | some m =>
        if m.any (fun c => ¬ jsWsChar c ∧ ¬ jsSpecialChar c) then m else cur
      | none => cur
    else cur

/-- One iteration body of `foldLine`: the line pushed at position `pos`. -/

def foldStep (s : List Char) (maxLen pos : Nat) : List Char :=
  foldAdjust s pos (foldCur1 s maxLen pos)

/-- The `while (pos < len)` loop of `foldLine`, with explicit fuel.  Each
iteration pushes `foldStep` and advances `pos` by its length; when the fuel
runs out before `pos` reaches the end the remaining iterations are dropped
(the JS loop would keep running). -/

def foldLineAux (s : List Char) (maxLen : Nat) : Nat → Nat → List (List Char)
  | 0, _ => []
  | fuel + 1, pos =>
    if pos < s.length then
      let cur := foldStep s maxLen pos
      cur :: foldLineAux s maxLen fuel (pos + cur.length)
    else []

/-- `foldLine` with fuel `s.length`, which suffices whenever `maxLen ≥ 1`
(each iteration advances `pos` by at least one). -/

def foldLine (s : List Char) (maxLen : Nat) : List (List Char) :=
  foldLineAux s maxLen s.length 0

/-! ### JavaScript object maps

A JS object with string keys, observed through `obj[k]` reads, `obj[k] = v`
assignment (overwriting keeps the key's original position) and `k in obj`,
is modelled as an association list with `jsGet`/`jsSet`. -/

/-- `obj[k]`: first (and only) binding of `k`. -/

def jsGet {β : Type} : List (String × β) → String → Option β
  | [], _ => none
  | (k', v) :: rest, k => if k' = k then some v else jsGet rest k

/-- `obj[k] = v`: overwrite in place, else append. -/

def jsSet {β : Type} : List (String × β) → String → β → List (String × β)
  | [], k, v => [(k, v)]
  | (k', v') :: rest, k, v =>
    if k' = k then (k', v) :: rest else (k', v') :: jsSet rest k v

/-! ### Shared string helpers (shared.ts) -/

/-- JS `String.prototype.trim` (strips the `\s` class on both ends). -/

def jsTrim (s : String) : String :=
  ⟨((s.data.dropWhile jsWsChar).reverse.dropWhile jsWsChar).reverse⟩

/-- JS `String.prototype.toLowerCase` (ASCII-relevant part). -/

def jsLower (s : String) : String := ⟨s.data.map Char.toLower⟩

/-- Split on a single separator character (the behavior of JS
`String.prototype.split` with a one-character separator, as used with
`":"` and `"\n"`). -/

def splitOnChar (sep : Char) : List Char → List (List Char)
  | [] => [[]]
  | c :: rest =>
    if c = sep then [] :: splitOnChar sep rest
    else
      match splitOnChar sep rest with
      | [] => [[c]]
      | h :: t => (c :: h) :: t

/-- JS `s.split(sep)` for a one-character separator. -/

def jsSplit (s : String) (sep : Char) : List String :=
  (splitOnChar sep s.data).map (fun cs => ⟨cs⟩)

/-- JS `parts.join(sep)`. -/

def jsJoin (sep : String) : List String → String
  | [] => ""
  | [x] => x
  | x :: xs => x ++ sep ++ jsJoin sep xs

/-- The canonical header-name table `HEADERS` of shared.ts. -/

def HEADERS : List (String × String) :=
  [("project-id-version", "Project-Id-Version"),
   ("report-msgid-bugs-to", "Report-Msgid-Bugs-To"),
   ("pot-creation-date", "POT-Creation-Date"),
   ("po-revision-date", "PO-Revision-Date"),
   ("last-translator", "Last-Translator"),
   ("language-team", "Language-Team"),
   ("language", "Language"),
   ("content-type", "Content-Type"),
   ("content-transfer-encoding", "Content-Transfer-Encoding"),
   ("plural-forms", "Plural-Forms")]

/-- `parseHeader` of shared.ts: split the header block on `\n`, split each
line on the first `:`, trim both sides, canonicalize known keys, insert. -/

def parseHeader (str : String) : List (String × String) :=
  (jsSplit str '\n').foldl
    (fun headers line =>
      let parts := jsSplit line ':'
      let key := jsTrim (parts.headD "")
      if key ≠ "" then
        let value := jsTrim (jsJoin ":" parts.tail)
        let key' := (jsGet HEADERS (jsLower key)).getD key
        jsSet headers key' value
      else headers)
    []

/-- Value of a maximal decimal digit run (`Number.parseInt` on the capture
of `\d+`). -/

def digitsToNat (ds : List Char) : Nat :=
  ds.foldl (fun acc c => acc * 10 + (c.toNat - 48)) 0

/-- One attempt of `/nplurals\s*=\s*(\d+)/` at a fixed start position. -/

def npluralsTry (t : List Char) : Option Nat :=
  if t.take 8 = "nplurals".data then
    let t2 := (t.drop 8).dropWhile jsWsChar
    match t2 with
    | '=' :: t3 =>
      let t4 := t3.dropWhile jsWsChar
      let ds := t4.takeWhile Char.isDigit
      if ds = [] then none else some (digitsToNat ds)
    | _ => none
  else none

/-- Leftmost match of `/nplurals\s*=\s*(\d+)/`, returning the numeric value
of the capture group. -/

def npluralsScan : List Char → Option Nat
  | [] => none
  | t@(_ :: rest) => (npluralsTry t).orElse (fun _ => npluralsScan rest)

/-- `parseNPluralFromHeadersSafely` of shared.ts.  Notes: a missing or
empty `Plural-Forms` value is falsy and yields the fallback; when the regex
does not match, the destructuring default feeds the fallback through
`parseInt`; and `parseInt(...) || fallback` sends a parsed `0` to the
fallback as well. -/

def parseNPluralSafely (headers : List (String × String)) (fallback : Nat) : Nat :=
  match jsGet headers "Plural-Forms" with
  | none => fallback
  | some pf =>
    if pf = "" then fallback
    else
      match npluralsScan pf.data with
      | none => fallback
      | some n => if n = 0 then fallback else n

/-! ### The translation-table data model (types.ts) -/

/-- The five comment fields; `""` models an absent field (both are falsy
and are observed only through truthiness here). -/

structure Comments where
  translator : String := ""
  reference : String := ""
  extracted : String := ""
  flag : String := ""
  previous : String := ""
  deriving DecidableEq, Repr

/-- One translation entry.  `msgctxt = ""` and `msgid_plural = ""` model
absent fields (the source observes them only through truthiness and
`|| ""`). -/

structure Entry where
  msgctxt : String := ""
  msgid : String := ""
  msgid_plural : String := ""
  msgstr : List String := []
  comments : Comments := {}
  obsolete : Bool := false
  deriving DecidableEq, Repr

/-- `delete tokens[i].obsolete` before storing into the obsolete map. -/

def clearObs (tok : Entry) : Entry := { tok with obsolete := false }

/-- Nested context → id → entry map. -/

abbrev TrMap := List (String × List (String × Entry))

/-- The translation table; `headers = none` models the initially
`undefined` headers object, `obsolete = []` the initially absent obsolete
map. -/

structure Table where
  charset : String
  headers : Option (List (String × String))
  translations : TrMap
  obsolete : TrMap
  deriving DecidableEq, Repr

/-- Lookup in a nested map. -/

def jsGet2 (m : TrMap) (ctx id : String) : Option Entry :=
  (jsGet m ctx).bind (fun inner => jsGet inner id)

/-- The ensure-then-assign idiom of `_normalize`:
`if (!table.x[ctx]) table.x[ctx] = {}; table.x[ctx][id] = v`. -/

def jsSetDeep (m : TrMap) (ctx id : String) (v : Entry) : TrMap :=
  let m0 := (jsGet m ctx).getD []
  let ensured := if (jsGet m ctx).isSome then m else m ++ [(ctx, [])]
  jsSet ensured ctx (jsSet m0 id v)

/-! ### `_validateToken` and `_normalize` (PoParser.ts lines 447-529) -/

/-- Error kinds thrown by `_validateToken`: the duplicate check raises a JS
`SyntaxError`, the two count checks raise JS `RangeError`s; the payloads
carry the data interpolated into the messages. -/

inductive PoErr
  | duplicateMsgid (msgid msgctxt : String)
  | pluralRange (expected got : Nat) (msgidPlural msgctxt : String)
  | singularRange (got : Nat) (msgid msgctxt : String)
  deriving DecidableEq, Repr

/-- Whether the error is a JS `RangeError` (as opposed to `SyntaxError`). -/

def PoErr.isRangeErr : PoErr → Bool
  | .duplicateMsgid _ _ => false
  | _ => true

/-- `_validateToken`: duplicate check first, then the plural-count check,
then the singular-count check; a no-op unless validation is on. -/

def validateToken (validation : Bool) (tok : Entry)
    (ctxMap : List (String × Entry)) (msgctxt : String) (nplurals : Nat) :
    Option PoErr :=
  if ¬ validation then none
  else if (jsGet ctxMap tok.msgid).isSome then
    some (.duplicateMsgid tok.msgid msgctxt)
  else if tok.msgid_plural ≠ "" ∧ tok.msgstr.length ≠ nplurals then
    some (.pluralRange nplurals tok.msgstr.length tok.msgid_plural msgctxt)
  else if tok.msgid_plural = "" ∧ tok.msgstr.length ≠ 1 then
    some (.singularRange tok.msgstr.length tok.msgid msgctxt)
  else none

/-- Header-extraction step of `_normalize`: on the first entry with empty
context and empty id (headers still `undefined`), parse the headers from
`msgstr[0]` and refresh `nplurals`; otherwise keep both unchanged. -/

def normHnp (t : Table) (tok : Entry) (np : Nat) :
    Option (List (String × String)) × Nat :=
  if t.headers.isNone ∧ tok.msgctxt = "" ∧ tok.msgid = "" then
    (some (parseHeader (tok.msgstr.headD "")),
     parseNPluralSafely (parseHeader (tok.msgstr.headD "")) np)
  else (t.headers, np)

/-- The loop body of `_normalize`, threading the table and the running
`nplurals`.  Per token: obsolete tokens go to the obsolete map (bypassing
headers and validation, with their obsolete flag deleted); otherwise the
context map is ensured, headers are extracted once, the token is validated
against the context map and the running `nplurals`, and then stored. -/

def normGo (validation : Bool) :
    List Entry → Table → Nat → Except PoErr (Table × Nat)
  | [], t, np => .ok (t, np)
  | tok :: rest, t, np =>
    if tok.obsolete then
      normGo validation rest
        { t with obsolete := jsSetDeep t.obsolete tok.msgctxt tok.msgid (clearObs tok) }
        np
    else
      match validateToken validation tok ((jsGet t.translations tok.msgctxt).getD [])
          tok.msgctxt (normHnp t tok np).2 with
      | some e => .error e
      | none =>
        normGo validation rest
          { t with translations := jsSetDeep t.translations tok.msgctxt tok.msgid tok,
                   headers := (normHnp t tok np).1 }
          (normHnp t tok np).2

/-- `_normalize`: fold the tokens into a fresh table with `nplurals = 1`. -/

def normalize (charset : String) (validation : Bool) (tokens : List Entry) :
    Except PoErr Table :=
  (normGo validation tokens
    { charset := charset, headers := none, translations := [], obsolete := [] }
    1).map (·.1)

/-! ### Specification helpers for `_normalize` -/

/-- First-some choice. -/

def oGetD {α : Type} (o d : Option α) : Option α :=
  match o with
  | some a => some a
  | none => d

@[simp] theorem oGetD_some {α : Type} (a : α) (d : Option α) :
    oGetD (some a) d = some a := rfl

@[simp] theorem oGetD_none {α : Type} (d : Option α) : oGetD none d = d := rfl

/-- Accumulator of the "last write wins" specification. -/

def lastPutAux (obs : Bool) (ctx id : String) :
    List Entry → Option Entry → Option Entry
  | [], acc => acc
  | tok :: rest, acc =>
    lastPutAux obs ctx id rest
      (if tok.obsolete = obs ∧ tok.msgctxt = ctx ∧ tok.msgid = id then
        some (clearObs tok)
      else acc)

/-- The stored entry the last matching token of the given obsoleteness
would leave under key `(ctx, id)` (with its obsolete flag cleared, as
`_normalize` stores it). -/

def lastPut (tokens : List Entry) (obs : Bool) (ctx id : String) : Option Entry :=
  lastPutAux obs ctx id tokens none

/-- The first non-obsolete token with empty context and empty id (the one
whose `msgstr[0]` becomes the headers). -/

def firstHeaderTok (tokens : List Entry) : Option Entry :=
  tokens.find? (fun tok => !tok.obsolete && tok.msgctxt == "" && tok.msgid == "")

instance {ε α : Type} [DecidableEq ε] [DecidableEq α] :
    DecidableEq (Except ε α) := fun x y =>
  match x, y with
  | .ok a, .ok b =>
    if h : a = b then isTrue (by rw [h])
    else isFalse (by intro hh; cases hh; exact h rfl)
  | .error e, .error f =>
    if h : e = f then isTrue (by rw [h])
    else isFalse (by intro hh; cases hh; exact h rfl)
  | .ok _, .error _ => isFalse (by intro hh; cases hh)
  | .error _, .ok _ => isFalse (by intro hh; cases hh)

/-- Concrete header token for the C2 witness. -/

def c2WitTok : Entry := { msgid := "", msgstr := ["Language: de\n"] }

/-- The table `_normalize` produces for `[c2WitTok]`. -/

def c2WitTable : Table :=
  { charset := "utf-8", headers := some [("Language", "de")],
    translations := [("", [("", c2WitTok)])], obsolete := [] }

/-- Concrete duplicate pair for the C4 witness. -/

def c4WitToks : List Entry :=
  [{ msgid := "h", msgstr := ["1"] }, { msgid := "h", msgstr := ["2"] }]

/-! ### Claim C8 theorems -/

/-- `Except` success as a Bool. -/

def isOkE {ε α : Type} : Except ε α → Bool
  | .ok _ => true
  | .error _ => false

/-- Forget the obsolete map (the component `_normalize`'s control flow
never reads). -/

def eraseObsT (t : Table) : Table := { t with obsolete := [] }

/-! ### Claim C5 definitions and helpers

The running `nplurals` of `_normalize` is positional: it starts at 1 and is
refreshed exactly once, when the first non-obsolete entry with empty
context and empty msgid is processed (including for that entry's own
validation).  `hdrStep`/`npThrough` replay that evolution on the token
list alone. -/

/-- One step of the (headers-set?, nplurals) state. -/

def hdrStep (st : Bool × Nat) (tok : Entry) : Bool × Nat :=
  if ¬ st.1 ∧ tok.obsolete = false ∧ tok.msgctxt = "" ∧ tok.msgid = "" then
    (true, parseNPluralSafely (parseHeader (tok.msgstr.headD "")) st.2)
  else st

/-- The (headers-set?, nplurals) state after a token list. -/

def npThrough (tokens : List Entry) (st : Bool × Nat) : Bool × Nat :=
  tokens.foldl hdrStep st

/-- A non-obsolete entry violating its count constraint against the given
`nplurals` (the condition of `_validateToken`'s two `RangeError`s). -/

def rangeViol (tok : Entry) (np : Nat) : Prop :=
  tok.obsolete = false ∧
    ((tok.msgid_plural ≠ "" ∧ tok.msgstr.length ≠ np) ∨
     (tok.msgid_plural = "" ∧ tok.msgstr.length ≠ 1))

instance (tok : Entry) (np : Nat) : Decidable (rangeViol tok np) := by
  rw [rangeViol]; infer_instance

/-- Some entry of the list violates its positional count constraint. -/

def hasRangeViol (tokens : List Entry) (st : Bool × Nat) : Prop :=
  ∃ i, ∃ h : i < tokens.length,
    rangeViol tokens[i] (npThrough (tokens.take (i + 1)) st).2

/-- The (context, msgid) keys of the non-obsolete entries. -/

def nonObsKeys (tokens : List Entry) : List (String × String) :=
  (tokens.filter (fun tok => !tok.obsolete)).map
    (fun tok => (tok.msgctxt, tok.msgid))

/-- Concrete tokens for the C5 counterexample: a plural entry with three
forms appears before the header that declares `nplurals=3`. -/

def c5CexToks : List Entry :=
  [{ msgid := "x", msgid_plural := "xs", msgstr := ["1", "2", "3"] },
   { msgid := "", msgstr := ["Plural-Forms: nplurals=3; plural=n;\n"] }]

/-- Concrete tokens for the C5 witness: the header (`nplurals=3`) comes
first, followed by a plural entry with exactly three forms. -/

def c5WitToks : List Entry :=
  [{ msgid := "", msgstr := ["Plural-Forms: nplurals=3; plural=n;\n"] },
   { msgid := "x", msgid_plural := "xs", msgstr := ["1", "2", "3"] }]

/-- Concrete obsolete/regular pair sharing a key for the C8 witness. -/

def c8WitToks : List Entry :=
  [{ msgid := "k", msgstr := ["old"], obsolete := true },
   { msgid := "k", msgstr := ["new"] }]

/-! ### Claim C9: `_drawComments` (pocompiler.ts lines 119-156)

```
_drawComments(comments) {
  const lines = [];
  const types = [ { key: "translator", prefix: "# " }, { key: "reference", prefix: "#: " },
    { key: "extracted", prefix: "#. " }, { key: "flag", prefix: "#, " },
    { key: "previous", prefix: "#| " } ];
  for (const type of types) {
    if (!comments[type.key]) { return; }
    for (const line of comments[type.key].split(/\r?\n|\r/)) {
      lines.push(type.prefix + line);
    }
  }
  return lines.join(this._options.eol);
}
```

The `return` inside `for...of` exits the whole method with `undefined`
(modelled as `none`) as soon as any field is falsy — it does not skip to
the next field. -/

/-- JS `split(/\r?\n|\r/)`. -/

def splitNlJs : List Char → List (List Char)
  | [] => [[]]
  | '\r' :: '\n' :: rest => [] :: splitNlJs rest
  | '\r' :: rest => [] :: splitNlJs rest
  | '\n' :: rest => [] :: splitNlJs rest
  | c :: rest =>
    match splitNlJs rest with
    | [] => [[c]]
    | h :: t => (c :: h) :: t

/-- One `types` iteration: abort (`return`, i.e. `none`) on a falsy field,
else push the prefixed re-split lines. -/

def drawField (acc : List String) (field : String) (pfx : String) :
    Option (List String) :=
  if field = "" then none
  else some (acc ++ (splitNlJs field.data).map (fun line => pfx ++ (⟨line⟩ : String)))

/-- `_drawComments`: the five fields in fixed order; any falsy field makes
the whole method return `undefined`. -/

def drawComments (comments : Comments) (eol : String) : Option String := do
  let l1 ← drawField [] comments.translator "# "
  let l2 ← drawField l1 comments.reference "#: "
  let l3 ← drawField l2 comments.extracted "#. "
  let l4 ← drawField l3 comments.flag "#, "
  let l5 ← drawField l4 comments.previous "#| "
  pure (jsJoin eol l5)

/-- A comment block with only the translator field set. -/

def c9OnlyTranslator : Comments :=
  { translator := "note" }

/-- A comment block with all five fields set. -/

def c9AllFields : Comments :=
  { translator := "t", reference := "r", extracted := "e", flag := "f", previous := "p" }

/-! ## The MO byte model (mocompiler.ts, moparser.ts)

Buffers are lists of bytes (`List Nat`, each element < 256 in every buffer
the code builds).  JS exceptions are modelled with `Except JsErr`. -/

/-- The two exception kinds the MO paths can raise: Node's
`buf.readUInt32LE` / `writeUInt32LE` throw `RangeError` on out-of-bounds
offsets or values, and calling `undefined` throws a `TypeError`. -/

inductive JsErr
  | rangeError
  | typeError
  deriving DecidableEq, Repr

/-- `0x950412de`, the MO magic number (`MAGIC` in both files). -/

def MAGIC : Nat := 0x950412de

/-- Read one byte; positions past the end give 0 (used only at positions
that are in bounds in every theorem below). -/

def bget (buf : List Nat) (i : Nat) : Nat := buf.getD i 0

/-- Node `buf.writeUInt32LE(v, pos)`, little-endian byte decomposition.
Node validates `0 ≤ v < 2^32` and `pos + 4 ≤ buf.length` and throws a
`RangeError` otherwise; in `_build` every call is in bounds and in range
once `size.total < 2^32` (the hypothesis of the layout theorem), so the
successful write is modelled (`List.set` ignores out-of-range positions,
which is never exercised under that hypothesis). -/

def writeU32LE (buf : List Nat) (v pos : Nat) : List Nat :=
  ((((buf.set pos (v % 256)).set (pos + 1) (v / 256 % 256)).set
      (pos + 2) (v / 65536 % 256)).set (pos + 3) (v / 16777216 % 256))

/-- Node `src.copy(target, targetStart)`: byte-wise copy (clamped at the
target's end, as `List.set` ignores out-of-range positions). -/

def copyBytes : List Nat → List Nat → Nat → List Nat
  | [], buf, _ => buf
  | b :: rest, buf, pos => copyBytes rest (buf.set pos b) (pos + 1)

/-- The 32-bit little-endian value at `pos` (pure, for stating what a built
buffer holds). -/

def readU32LEat (buf : List Nat) (pos : Nat) : Nat :=
  bget buf pos + 256 * bget buf (pos + 1) + 65536 * bget buf (pos + 2) +
    16777216 * bget buf (pos + 3)

/-- The 32-bit big-endian value at `pos`. -/

def readU32BEat (buf : List Nat) (pos : Nat) : Nat :=
  16777216 * bget buf pos + 65536 * bget buf (pos + 1) +
    256 * bget buf (pos + 2) + bget buf (pos + 3)

/-- Node `buf.readUInt32LE(pos)` / `readUInt32BE(pos)`: throws `RangeError`
unless `pos + 4 ≤ buf.length`.  `le` selects the endianness
(`this._readFunc`). -/

def readU32E (le : Bool) (buf : List Nat) (pos : Nat) : Except JsErr Nat :=
  if pos + 4 ≤ buf.length then
    .ok (if le then readU32LEat buf pos else readU32BEat buf pos)
  else .error .rangeError

/-! ### `Compiler._calculateSize` and `Compiler._build` (mocompiler.ts)

```
_calculateSize(list) {
  let msgidLength = 0; let msgstrLength = 0; let totalLength = 0;
  list.forEach((translation) => {
    msgidLength += translation.msgid.length + 1;
    msgstrLength += translation.msgstr.length + 1;
  });
  totalLength = 4 + 4 + 4 + 4 + 4 + 4 + 4 +
    (4 + 4) * list.length + (4 + 4) * list.length +
    msgidLength + msgstrLength;
  return { msgid: msgidLength, msgstr: msgstrLength, total: totalLength };
}
```

`_build` writes the seven header words, then runs two identical loops: the
originals loop fills the table at `28 + i*8` and copies each `msgid` body
(null-terminated) at the running `curPosition`, which starts at
`28 + 2*(4+4)*list.length`; the translations loop does the same at
`28 + (4+4)*list.length + i*8` for the `msgstr` bodies, continuing at the
same `curPosition`.  Both loops are the shared shape `moLoop` below. -/

/-- One item of `_generateList`'s output: a pair of byte buffers. -/

structure MoItem where
  msgid : List Nat
  msgstr : List Nat
  deriving DecidableEq, Repr

/-- Σ (length + 1) over a list of byte strings (the `forEach` accumulation
in `_calculateSize`). -/

def sumLen1 (strs : List (List Nat)) : Nat :=
  (strs.map (fun s => s.length + 1)).sum

/-- The size record `_calculateSize` returns. -/

structure SizeInfo where
  msgid : Nat
  msgstr : Nat
  total : Nat
  deriving DecidableEq, Repr

/-- `Compiler._calculateSize`. -/

def calculateSize (list : List MoItem) : SizeInfo :=
  let msgidLength := sumLen1 (list.map (fun x => x.msgid))
  let msgstrLength := sumLen1 (list.map (fun x => x.msgstr))
  { msgid := msgidLength, msgstr := msgstrLength,
    total := 4 + 4 + 4 + 4 + 4 + 4 + 4 +
      (4 + 4) * list.length + (4 + 4) * list.length +
      msgidLength + msgstrLength }

/-- The common shape of `_build`'s two loops: for the `i`-th string `s`,
copy `s` at `curPosition`, write `s.length` at `tableBase + i*8` and
`curPosition` at `tableBase + i*8 + 4`, write the `0x00` terminator, and
advance `curPosition` by `s.length + 1`.  Returns the buffer and the final
`curPosition`. -/

def moLoop (tableBase : Nat) :
    List (List Nat) → Nat → List Nat → Nat → List Nat × Nat
  | [], _, buf, curPos => (buf, curPos)
  | s :: rest, i, buf, curPos =>
    moLoop tableBase rest (i + 1)
      ((writeU32LE (writeU32LE (copyBytes s buf curPos) s.length
          (tableBase + i * 8)) curPos (tableBase + i * 8 + 4)).set
        (curPos + s.length) 0)
      (curPos + s.length + 1)

/-- The seven header words `_build` writes on the `Buffer.alloc(size.total)`
zero buffer: magic, revision 0, string count, originals-table offset 28,
translations-table offset `28 + (4+4)*n`, hash size 0, hash offset
`28 + (4+4)*n*2`. -/

def moHeader (n total : Nat) : List Nat :=
  writeU32LE (writeU32LE (writeU32LE (writeU32LE (writeU32LE (writeU32LE
    (writeU32LE (List.replicate total 0) MAGIC 0) 0 4)
    n 8) 28 12) (28 + (4 + 4) * n) 16) 0 20)
    (28 + (4 + 4) * n * 2) 24

/-- `Compiler._build` (with `_writeFunc = "writeUInt32LE"`, as the
compiler always sets): the header words, then the originals loop starting
at `curPosition = 28 + 2*(4+4)*list.length`, then the translations loop
continuing at the originals loop's final `curPosition`. -/

def build (list : List MoItem) (size : SizeInfo) : List Nat :=
  let r1 := moLoop 28 (list.map (fun x => x.msgid)) 0
    (moHeader list.length size.total) (28 + 2 * (4 + 4) * list.length)
  (moLoop (28 + (4 + 4) * list.length) (list.map (fun x => x.msgstr)) 0
    r1.1 r1.2).1

/-- Offset of the `i`-th original string's body in the built buffer. -/

def origPos (list : List MoItem) (i : Nat) : Nat :=
  28 + 16 * list.length + sumLen1 ((list.map (fun x => x.msgid)).take i)

/-- Offset of the `i`-th translation string's body in the built buffer. -/

def transPos (list : List MoItem) (i : Nat) : Nat :=
  28 + 16 * list.length + sumLen1 (list.map (fun x => x.msgid)) +
    sumLen1 ((list.map (fun x => x.msgstr)).take i)

/-- The `len` bytes starting at `pos`. -/

def extractBytes (buf : List Nat) (pos len : Nat) : List Nat :=
  (List.range len).map (fun m => bget buf (pos + m))

/-- A two-item list (the empty-key header item and one real pair). -/

def c7WitList : List MoItem :=
  [{ msgid := [], msgstr := [104, 105] }, { msgid := [97], msgstr := [98, 99] }]

/-! ### Charset normalization and UTF-8 (shared.ts `formatCharset`,
encoding.ts `checkEncoding`, Node's UTF-8 codec)

`checkEncoding` trims, applies five anchored case-insensitive rewrites and
uppercases; `formatCharset` lowercases, applies five anchored lowercase
rewrites and trims.  Each `.replace(/^…$/, …)` either rewrites the whole
string or leaves it unchanged. -/

/-- Strip `pat` (given lowercase) case-insensitively from the front. -/

def stripCI : List Char → List Char → Option (List Char)
  | [], s => some s
  | _ :: _, [] => none
  | p :: ps, c :: cs => if c.toLower = p then stripCI ps cs else none

/-- Strip `pat` exactly from the front. -/

def stripL : List Char → List Char → Option (List Char)
  | [], s => some s
  | _ :: _, [] => none
  | p :: ps, c :: cs => if c = p then stripL ps cs else none

/-- `[\-_]?`: one optional dash or underscore. -/

def optDash : List Char → List Char
  | '-' :: r => r
  | '_' :: r => r
  | r => r

/-- `(\d+)$`: the rest is one or more digits. -/

def digits1 (s : List Char) : Bool :=
  !s.isEmpty && s.all Char.isDigit

/-- JS `String.prototype.toUpperCase` (ASCII-relevant part). -/

def jsUpper (s : List Char) : List Char := s.map Char.toUpper

/-- `^latin[\-_]?(\d+)$/i → ISO-8859-$1`. -/

def ceLatin (s : List Char) : Option (List Char) :=
  (stripCI "latin".data s).bind fun r =>
    let r2 := optDash r
    if digits1 r2 then some ("ISO-8859-".data ++ r2) else none

/-- `^win(?:dows)?[\-_]?(\d+)$/i → WINDOWS-$1` (the greedy optional
`(?:dows)?` backtracks when the tail fails). -/

def ceWin (s : List Char) : Option (List Char) :=
  (stripCI "win".data s).bind fun r =>
    match stripCI "dows".data r with
    | some r2 =>
      let r3 := optDash r2
      if digits1 r3 then some ("WINDOWS-".data ++ r3)
      else
        let r4 := optDash r
        if digits1 r4 then some ("WINDOWS-".data ++ r4) else none
    | none =>
      let r4 := optDash r
      if digits1 r4 then some ("WINDOWS-".data ++ r4) else none

/-- `^utf[\-_]?(\d+)$/i → UTF-$1`. -/

def ceUtf (s : List Char) : Option (List Char) :=
  (stripCI "utf".data s).bind fun r =>
    let r2 := optDash r
    if digits1 r2 then some ("UTF-".data ++ r2) else none

/-- `^ks_c_5601\-1987$/i → CP949`. -/

def ceKsc (s : List Char) : Option (List Char) :=
  if stripCI "ks_c_5601-1987".data s = some [] then some "CP949".data else none

/-- `^us[\-_]?ascii$/i → ASCII`. -/

def ceAscii (s : List Char) : Option (List Char) :=
  (stripCI "us".data s).bind fun r =>
    if stripCI "ascii".data (optDash r) = some [] then some "ASCII".data
    else none

/-- `checkEncoding` of encoding.ts. -/

def checkEncoding (name : String) : String :=
  let s0 := (jsTrim name).data
  let s1 := (ceLatin s0).getD s0
  let s2 := (ceWin s1).getD s1
  let s3 := (ceUtf s2).getD s2
  let s4 := (ceKsc s3).getD s3
  let s5 := (ceAscii s4).getD s4
  ⟨jsUpper s5⟩

/-- `^utf[-_]?(\d+)$ → utf-$1` (on the lowercased string). -/

def fcUtf (s : List Char) : Option (List Char) :=
  (stripL "utf".data s).bind fun r =>
    let r2 := optDash r
    if digits1 r2 then some ("utf-".data ++ r2) else none

/-- `^win(?:dows)?[-_]?(\d+)$ → windows-$1`. -/

def fcWin (s : List Char) : Option (List Char) :=
  (stripL "win".data s).bind fun r =>
    match stripL "dows".data r with
    | some r2 =>
      let r3 := optDash r2
      if digits1 r3 then some ("windows-".data ++ r3)
      else
        let r4 := optDash r
        if digits1 r4 then some ("windows-".data ++ r4) else none
    | none =>
      let r4 := optDash r
      if digits1 r4 then some ("windows-".data ++ r4) else none

/-- `^latin[-_]?(\d+)$ → iso-8859-$1`. -/

def fcLatin (s : List Char) : Option (List Char) :=
  (stripL "latin".data s).bind fun r =>
    let r2 := optDash r
    if digits1 r2 then some ("iso-8859-".data ++ r2) else none

/-- `^(us[-_]?)?ascii$ → ascii` (the greedy optional group backtracks). -/

def fcAscii (s : List Char) : Option (List Char) :=
  match stripL "us".data s with
  | some r =>
    if stripL "ascii".data (optDash r) = some [] then some "ascii".data
    else if s = "ascii".data then some "ascii".data else none
  | none => if s = "ascii".data then some "ascii".data else none

/-- `^charset$ → defaultCharset`. -/

def fcCharset (dflt : String) (s : List Char) : Option (List Char) :=
  if s = "charset".data then some dflt.data else none

/-- `formatCharset` of shared.ts: lowercase, the five anchored rewrites,
then trim. -/

def formatCharset (charset : String) (defaultCharset : String) : String :=
  let s0 := (jsLower charset).data
  let s1 := (fcUtf s0).getD s0
  let s2 := (fcWin s1).getD s1
  let s3 := (fcLatin s2).getD s2
  let s4 := (fcAscii s3).getD s3
  let s5 := (fcCharset defaultCharset s4).getD s4
  jsTrim ⟨s5⟩

/-- UTF-8 bytes of one scalar value (`Buffer.from(str, "utf-8")`). -/

def utf8EncodeChar (c : Char) : List Nat :=
  let n := c.toNat
  if n < 128 then [n]
  else if n < 2048 then [192 + n / 64, 128 + n % 64]
  else if n < 65536 then [224 + n / 4096, 128 + n / 64 % 64, 128 + n % 64]
  else [240 + n / 262144, 128 + n / 4096 % 64, 128 + n / 64 % 64, 128 + n % 64]

/-- `Buffer.from(str, "utf-8")`. -/

def utf8Encode (s : List Char) : List Nat :=
  (s.map utf8EncodeChar).flatten

/-- U+FFFD, the replacement character of lenient UTF-8 decoding. -/

def replChar : Char := '�'

/-- Lenient UTF-8 decoding with fuel (structural recursion on the fuel;
every recursive call consumes at least one byte and one unit of fuel, so
with fuel ≥ length the truncation case is never reached). -/

def utf8DecodeAux : Nat → List Nat → List Char
  | 0, _ => []
  | _, [] => []
  | fuel + 1, b :: rest =>
    if b < 128 then Char.ofNat b :: utf8DecodeAux fuel rest
    else if 194 ≤ b ∧ b ≤ 223 then
      match rest with
      | [] => [replChar]
      | b1 :: rest2 =>
        if 128 ≤ b1 ∧ b1 ≤ 191 then
          Char.ofNat ((b - 192) * 64 + (b1 - 128)) :: utf8DecodeAux fuel rest2
        else replChar :: utf8DecodeAux fuel rest
    else if 224 ≤ b ∧ b ≤ 239 then
      match rest with
      | [] => [replChar]
      | b1 :: rest2 =>
        if (if b = 224 then 160 ≤ b1 ∧ b1 ≤ 191
            else if b = 237 then 128 ≤ b1 ∧ b1 ≤ 159
            else 128 ≤ b1 ∧ b1 ≤ 191) then
          match rest2 with
          | [] => [replChar]
          | b2 :: rest3 =>
            if 128 ≤ b2 ∧ b2 ≤ 191 then
              Char.ofNat ((b - 224) * 4096 + (b1 - 128) * 64 + (b2 - 128)) ::
                utf8DecodeAux fuel rest3
            else replChar :: utf8DecodeAux fuel rest2
        else replChar :: utf8DecodeAux fuel rest
    else if 240 ≤ b ∧ b ≤ 244 then
      match rest with
      | [] => [replChar]
      | b1 :: rest2 =>
        if (if b = 240 then 144 ≤ b1 ∧ b1 ≤ 191
            else if b = 244 then 128 ≤ b1 ∧ b1 ≤ 143
            else 128 ≤ b1 ∧ b1 ≤ 191) then
          match rest2 with
          | [] => [replChar]
          | b2 :: rest3 =>
            if 128 ≤ b2 ∧ b2 ≤ 191 then
              match rest3 with
              | [] => [replChar]
              | b3 :: rest4 =>
                if 128 ≤ b3 ∧ b3 ≤ 191 then
                  Char.ofNat ((b - 240) * 262144 + (b1 - 128) * 4096 +
                    (b2 - 128) * 64 + (b3 - 128)) :: utf8DecodeAux fuel rest4
                else replChar :: utf8DecodeAux fuel rest3
            else replChar :: utf8DecodeAux fuel rest2
        else replChar :: utf8DecodeAux fuel rest
    else replChar :: utf8DecodeAux fuel rest

/-- Node `buf.toString("utf8")`: the standard lenient UTF-8 decoder (one
U+FFFD per maximal invalid subpart, resuming at the offending byte). -/

def utf8Decode (bytes : List Nat) : List Char :=
  utf8DecodeAux bytes.length bytes

/-- `\w` plus `-`: the capture class of `/[; ]charset\s*=\s*([\w-]+)/i`. -/

def jsWordDash (c : Char) : Bool :=
  c.isAlpha || c.isDigit || c == '_' || c == '-'

/-- One attempt of the charset regex right after a matched `[; ]`. -/

def charsetTryAt (t : List Char) : Option (List Char) :=
  (stripCI "charset".data t).bind fun r =>
    match r.dropWhile jsWsChar with
    | '=' :: r2 =>
      let cap := (r2.dropWhile jsWsChar).takeWhile jsWordDash
      if cap = [] then none else some cap
    | _ => none

/-- Leftmost match of `/[; ]charset\s*=\s*([\w-]+)/i`, returning the
capture. -/

def scanCharset : List Char → Option (List Char)
  | [] => none
  | c :: rest =>
    if c = ';' ∨ c = ' ' then
      match charsetTryAt rest with
      | some cap => some cap
      | none => scanCharset rest
    else scanCharset rest

/-- JS `parts.join(sep)` over char lists, one-char separator. -/

def joinChar (sep : Char) : List (List Char) → List Char
  | [] => []
  | [x] => x
  | x :: xs => x ++ sep :: joinChar sep xs

/-- The UTF-16 code units of a JS string (astral scalars are surrogate
pairs; JS string comparison is code-unit lexicographic). -/

def codeUnits (s : List Char) : List Nat :=
  (s.map (fun c =>
    if c.toNat < 65536 then [c.toNat]
    else [55296 + (c.toNat - 65536) / 1024, 56320 + (c.toNat - 65536) % 1024])).flatten

/-- Lexicographic `<` on code-unit lists (JS `a < b` for strings). -/

def lexLt : List Nat → List Nat → Bool
  | _, [] => false
  | [], _ :: _ => true
  | a :: as, b :: bs => if a < b then true else if b < a then false else lexLt as bs

/-! ### `moparser.ts`: `Parser.parse`, `_checkMagick`,
`_loadTranslationTable`, `_handleCharset`, `_addString`

The parser's `encoding.convert(buf, "utf-8", from)` (the `encoding` npm
package, whose `convert`/`checkEncoding` are the same functions as the
local encoding.ts) returns the bytes unchanged when the normalized source
charset is already UTF-8, and otherwise iconv-lite's `decode`; iconv-lite
is not part of this repository, so it enters as the abstract `iconv`
parameter below. -/

/-- `encoding.convert(bytes, "utf-8", cs).toString("utf8")`. -/

def moConvert (iconv : String → List Nat → List Char) (bytes : List Nat)
    (cs : String) : List Char :=
  if checkEncoding cs = "UTF-8" then utf8Decode bytes else iconv cs bytes

/-- `Parser._addString`: split the context off at `\u0004`, the plural at
the first `\u0000` of the remaining msgid, the translations at `\u0000`,
and store at `translations[msgctxt][msgid]` (last write wins). -/

def moAddString (tr : TrMap) (mid mstr : List Char) : TrMap :=
  let msgidSplit := splitOnChar (Char.ofNat 4) mid
  let msgctxt := match msgidSplit with
    | _ :: _ :: _ => msgidSplit.headD []
    | _ => []
  let mid2 := match msgidSplit with
    | _ :: m2 :: ms => joinChar (Char.ofNat 4) (m2 :: ms)
    | _ => joinChar (Char.ofNat 4) msgidSplit
  let parts := splitOnChar (Char.ofNat 0) mid2
  let msgid := parts.headD []
  let msgidPlural := joinChar (Char.ofNat 0) parts.tail
  let entry : Entry :=
    { msgctxt := ⟨msgctxt⟩, msgid := ⟨msgid⟩, msgid_plural := ⟨msgidPlural⟩,
      msgstr := (splitOnChar (Char.ofNat 0) mstr).map (fun cs2 => (⟨cs2⟩ : String)),
      comments := {}, obsolete := false }
  jsSetDeep tr ⟨msgctxt⟩ ⟨msgid⟩ entry

/-- `Parser._handleCharset`: detect the charset in the raw header bytes
with `/[; ]charset\s*=\s*([\w-]+)/i`, normalize it with `formatCharset`
(falling back to the current charset), then convert and `parseHeader` the
header block. -/

def moHandleCharset (iconv : String → List Nat → List Char)
    (bytes : List Nat) (cs : String) : String × List (String × String) :=
  match scanCharset (utf8Decode bytes) with
  | some cap =>
    let cs2 := formatCharset ⟨cap⟩ cs
    (cs2, parseHeader ⟨moConvert iconv bytes cs2⟩)
  | none => (cs, parseHeader ⟨moConvert iconv bytes cs⟩)

/-- `_loadTranslationTable`'s loop: for each of the remaining `n` entries
read the (length, position) pairs from both tables (Node reads throw on
out-of-bounds offsets), slice the bodies (`Buffer.slice` clamps), handle
the charset on a first entry with empty msgid, convert both strings and
`_addString` them. -/

def moLoadAux (iconv : String → List Nat → List Char) (le : Bool)
    (buf : List Nat) :
    Nat → Nat → Nat → Bool → String → List (String × String) → TrMap →
    Except JsErr (String × (List (String × String) × TrMap))
  | 0, _, _, _, cs, hs, tr => .ok (cs, hs, tr)
  | n + 1, offO, offT, first, cs, hs, tr =>
    (readU32E le buf offO).bind fun len1 =>
    (readU32E le buf (offO + 4)).bind fun pos1 =>
    (readU32E le buf offT).bind fun len2 =>
    (readU32E le buf (offT + 4)).bind fun pos2 =>
    let msgidB := (buf.drop pos1).take len1
    let msgstrB := (buf.drop pos2).take len2
    let st := if first ∧ utf8Decode msgidB = [] then
        moHandleCharset iconv msgstrB cs
      else (cs, hs)
    moLoadAux iconv le buf n (offO + 8) (offT + 8) false st.1 st.2
      (moAddString tr (moConvert iconv msgidB st.1)
        (moConvert iconv msgstrB st.1))

/-- What `Parser.parse` can produce: the sentinel `false`, or the
translation table (charset, headers, translations). -/

inductive MoRes
  | sentinel
  | table (t : Table)
  deriving DecidableEq, Repr

/-- `parse` after a successful magic check: read revision, total and both
table offsets, then load the table.  The MO table always carries a headers
object (initially `{}`) and no obsolete map. -/

def moParseBody (iconv : String → List Nat → List Char) (le : Bool)
    (buf : List Nat) (cs0 : String) : Except JsErr Table :=
  (readU32E le buf 4).bind fun _rev =>
  (readU32E le buf 8).bind fun total =>
  (readU32E le buf 12).bind fun offO =>
  (readU32E le buf 16).bind fun offT =>
  (moLoadAux iconv le buf total offO offT true cs0 [] []).map fun r =>
    { charset := r.1, headers := some r.2.1, translations := r.2.2,
      obsolete := [] }

/-- `Parser.parse` with `_checkMagick`: `readUInt32LE(0)` (which throws a
`RangeError` on a buffer shorter than 4 bytes), then `readUInt32BE(0)`;
only when neither equals `MAGIC` is the sentinel `false` returned. -/

def moParse (iconv : String → List Nat → List Char) (buf : List Nat)
    (defaultCharset : String) : Except JsErr MoRes :=
  if buf.length < 4 then .error .rangeError
  else if readU32LEat buf 0 = MAGIC then
    (moParseBody iconv true buf defaultCharset).map .table
  else if readU32BEat buf 0 = MAGIC then
    (moParseBody iconv false buf defaultCharset).map .table
  else .ok .sentinel

/-- A valid, empty MO file: little-endian magic, revision 0, zero strings,
both tables and the hash table at offset 28, hash size 0. -/

def emptyMoBuf : List Nat :=
  [222, 18, 4, 149, 0, 0, 0, 0, 0, 0, 0, 0, 28, 0, 0, 0,
   28, 0, 0, 0, 0, 0, 0, 0, 28, 0, 0, 0]

/-- A concrete stand-in for the abstract iconv-lite decoder, for closed
evaluations. -/

def c6Iconv : String → List Nat → List Char := fun _ _ => []

/-- A 4-byte buffer whose word matches the magic in neither endianness. -/

def c6WitBuf : List Nat := [1, 2, 3, 4]

/-- The table an empty-but-valid MO file decodes to: the default charset,
empty headers, no translations. -/

def c6EmptyTable (cs : String) : Table :=
  { charset := cs, headers := some [], translations := [], obsolete := [] }

/-! ### `mocompiler.ts`: the `Compiler` constructor, `_handleCharset`,
`_generateList`, `compile`

mocompiler.ts imports the local encoding.js twice, as
`import encoding from "./encoding.js"` and as
`import convert from "./encoding.js"`.
Both names are the module's default export — the `convert` *function*
itself.  `_generateList` calls `convert(...)` for the header item (which
works) but `encoding.convert(key, charset)` for every translation entry;
a function has no `convert` property, so `encoding.convert` is
`undefined` and the call throws a `TypeError`. -/

/-- The object the content-type npm package's `parse` returns. -/

structure ContentTypeObj where
  type : String
  parameters : List (String × String)

/-- Strip one pair of surrounding double quotes (quoted parameter
values). -/

def dequote (v : String) : String :=
  match v.data with
  | '"' :: rest =>
    if rest ≠ [] ∧ rest.getLast? = some '"' then ⟨rest.dropLast⟩ else v
  | _ => v

/-- `contentType.parse` of the content-type npm package, on the plain
media-type strings that occur here: the type up to the first `;`, trimmed
and lowercased; then `key=value` parameters, keys trimmed and lowercased,
values trimmed and dequoted.  (The npm package also validates the shape
and throws on malformed input; the inputs reached in this development are
well-formed.) -/

def ctParse (s : String) : ContentTypeObj :=
  let parts := jsSplit s ';'
  let ty := jsLower (jsTrim (parts.headD ""))
  let params := parts.tail.foldl
    (fun acc p =>
      let kv := jsSplit p '='
      let key := jsLower (jsTrim (kv.headD ""))
      if key ≠ "" then jsSet acc key (dequote (jsTrim (jsJoin "=" kv.tail)))
      else acc)
    []
  { type := ty, parameters := params }

/-- Stable insertion keeping the list sorted by key in JS string order. -/

def insertStrKey (kv : String × String) :
    List (String × String) → List (String × String)
  | [] => [kv]
  | y :: ys =>
    if lexLt (codeUnits kv.1.data) (codeUnits y.1.data) then kv :: y :: ys
    else y :: insertStrKey kv ys

/-- `Object.keys(parameters).sort()` of `contentType.format`. -/

def sortParams (l : List (String × String)) : List (String × String) :=
  l.foldl (fun acc kv => insertStrKey kv acc) []

/-- `contentType.format`: the type, then `; key=value` for each parameter
in sorted key order (plain token values, as occur here, need no
quoting). -/

def ctFormat (o : ContentTypeObj) : String :=
  (sortParams o.parameters).foldl
    (fun acc kv => acc ++ "; " ++ kv.1 ++ "=" ++ kv.2) o.type

/-- The constructor's headers canonicalization: known keys (case
insensitively) are replaced by their canonical spelling,
`POT-Creation-Date` is dropped, unknown keys pass through. -/

def moCanonHeaders (hs : List (String × String)) : List (String × String) :=
  hs.foldl
    (fun result kv =>
      match jsGet HEADERS (jsLower kv.1) with
      | some canon =>
        if jsLower kv.1 = "pot-creation-date" then result
        else jsSet result canon kv.2
      | none => jsSet result kv.1 kv.2)
    []

/-- The constructor's translations filter: keep entries whose `msgstr`
holds at least one non-empty string, and contexts with at least one kept
entry.  (The `typeof … !== "object"` guards never fire on a well-formed
table.) -/

def moFilterTranslations (tr : TrMap) : TrMap :=
  tr.foldl
    (fun result ckv =>
      let msgs := ckv.2.foldl
        (fun r ikv =>
          if ikv.2.msgstr.any (fun s => s ≠ "") then jsSet r ikv.1 ikv.2
          else r)
        []
      if msgs ≠ [] then jsSet result ckv.1 msgs else result)
    []

/-- `Compiler._handleCharset`: parse `headers["Content-Type"] ||
"text/plain"`, pick the charset from the table's charset, the
content-type parameter or `"utf-8"` (normalized with `formatCharset`),
normalize the content-type's own charset parameter when present, and
write the formatted content-type back.  Returns the charset and the
updated headers. -/

def moCompileCharset (tableCharset : String)
    (headers : List (String × String)) : String × List (String × String) :=
  let raw := match jsGet headers "Content-Type" with
    | some v => if v = "" then "text/plain" else v
    | none => "text/plain"
  let ct := ctParse raw
  let ctCs := match jsGet ct.parameters "charset" with
    | some v => v
    | none => ""
  let charset := formatCharset
    (if tableCharset ≠ "" then tableCharset
     else if ctCs ≠ "" then ctCs else "utf-8") "iso-8859-1"
  let fixedParams := jsSet ct.parameters "charset" (formatCharset ctCs "iso-8859-1")
  let ct2 := if ctCs ≠ "" then { ct with parameters := fixedParams } else ct
  (charset, jsSet headers "Content-Type" (ctFormat ct2))

/-- `generateHeader` of shared.ts: `key: value` lines (values trimmed)
joined with `\n` plus a trailing `\n`; empty when there is no non-empty
key. -/

def generateHeader (header : List (String × String)) : String :=
  let keys := header.filter (fun kv => kv.1 ≠ "")
  if keys = [] then ""
  else jsJoin "\n" (keys.map (fun kv => kv.1 ++ ": " ++ jsTrim kv.2)) ++ "\n"

/-- The working `convert(str, charset)` call of the header item: with a
string input and source UTF-8, `convert` UTF-8-encodes, and when the
normalized target is also UTF-8 returns those bytes; any other target
goes through iconv-lite's `encode`, abstracted as the `iconvEnc`
parameter. -/

def encConvertStr (iconvEnc : String → List Char → List Nat) (s : String)
    (toCs : String) : List Nat :=
  if checkEncoding toCs = "UTF-8" then utf8Encode s.data
  else iconvEnc (checkEncoding toCs) s.data

/-- The inner `forEach` over one context of `_generateList`: the header
entry `("", "")` is skipped; any other entry reaches
`encoding.convert(key, charset)`, which is `undefined(...)` — a
TypeError. -/

def moGenListIds (c : String) : List (String × Entry) → Except JsErr (List MoItem)
  | [] => .ok []
  | (id, _e) :: rest =>
    if c = "" ∧ id = "" then moGenListIds c rest
    else .error .typeError

/-- The outer `forEach` of `_generateList`. -/

def moGenListCtx : TrMap → Except JsErr (List MoItem)
  | [] => .ok []
  | (c, ctxm) :: rest =>
    (moGenListIds c ctxm).bind fun l1 =>
    (moGenListCtx rest).map (fun l2 => l1 ++ l2)

/-- `Compiler._generateList`: the header item (empty msgid, the generated
header block converted to the target charset — this call works), then the
entries, each of which throws. -/

def moGenerateList (iconvEnc : String → List Char → List Nat)
    (headers : List (String × String)) (charset : String) (tr : TrMap) :
    Except JsErr (List MoItem) :=
  (moGenListCtx tr).map fun items =>
    { msgid := [], msgstr := encConvertStr iconvEnc (generateHeader headers) charset } :: items

/-- `compareMsgid` of shared.ts as `list.sort`'s comparator: the items'
`msgid` Buffers are compared with `<`/`>`, which coerces each Buffer via
`toString()` (UTF-8 decoding) and compares the strings by UTF-16 code
units. -/

def compareMsgid (a b : MoItem) : Int :=
  if lexLt (codeUnits (utf8Decode a.msgid)) (codeUnits (utf8Decode b.msgid)) then -1
  else if lexLt (codeUnits (utf8Decode b.msgid)) (codeUnits (utf8Decode a.msgid)) then 1
  else 0

/-- Stable insertion for `Array.sort` (V8's sort is stable): an element
goes after every earlier element the comparator does not order above
it. -/

def jsInsertLe (le : MoItem → MoItem → Bool) (x : MoItem) :
    List MoItem → List MoItem
  | [] => [x]
  | y :: ys => if le y x then y :: jsInsertLe le x ys else x :: y :: ys

/-- `list.sort(compareMsgid)`. -/

def jsSortStable (cmp : MoItem → MoItem → Int) (l : List MoItem) : List MoItem :=
  l.foldl (fun acc x => jsInsertLe (fun a b => cmp a b ≤ 0) x acc) []

/-- `mocompiler.ts`'s default export: construct the `Compiler` (headers
canonicalization, translations filter, `_handleCharset`) and run
`compile()` (`_generateList`, `_calculateSize` on the unsorted list,
`sort`, `_build`). -/

def moCompile (iconvEnc : String → List Char → List Nat) (t : Table) :
    Except JsErr (List Nat) :=
  let headers0 := moCanonHeaders (t.headers.getD [])
  let tr := moFilterTranslations t.translations
  let hc := moCompileCharset t.charset headers0
  (moGenerateList iconvEnc hc.2 hc.1 tr).map fun list =>
    build (jsSortStable compareMsgid list) (calculateSize list)

/-- A concrete stand-in for the abstract iconv-lite encoder, for closed
evaluations. -/

def c1Iconv : String → List Char → List Nat := fun _ _ => []

/-- One entry with a non-empty translation (so it is in the round-trip
claim's domain and survives the constructor's filter). -/

def c1Entry : Entry := { msgid := "a", msgstr := ["b"] }

/-- A minimal table in the round-trip claim's domain. -/

def c1Table : Table :=
  { charset := "utf-8", headers := some [],
    translations := [("", [("a", c1Entry)])], obsolete := [] }

/-! ### Properties of the `foldLine` regex helpers -/

theorem lazyK_le {t : List Char} {k : Nat} (h : lazyK t = some k) :
    k + 2 ≤ t.length := by
  induction t generalizing k with
  | nil => simp [lazyK] at h
  | cons c rest ih =>
    rw [lazyK] at h
    split at h
    · rename_i hc
      cases h
      have h2 : rest.head? = some 'n' := hc.2
      cases rest with
      | nil => simp at h2
      | cons _ _ => simp only [List.length_cons]; omega
    · split at h
      · match hr : lazyK rest with
        | none => rw [hr] at h; simp at h
        | some k' =>
          rw [hr] at h
          simp only [Option.map_some'] at h
          cases h
          have := ih hr
          simp only [List.length_cons]; omega
      · simp at h

theorem execLazyEscN_length {t m : List Char} (h : execLazyEscN t = some m) :
    1 ≤ m.length := by
  induction t with
  | nil => simp [execLazyEscN] at h
  | cons c rest ih =>
    rw [execLazyEscN] at h
    split at h
    · rename_i k hk
      cases h
      have hle := lazyK_le hk
      simp only [List.length_take]
      omega
    · exact ih h

theorem maxSatBelow_spec {f : Nat → Bool} {n k : Nat}
    (h : maxSatBelow f n = some k) : k ≤ n ∧ f k := by
  induction n with
  | zero =>
    rw [maxSatBelow] at h
    split at h
    · cases h; simp_all
    · simp at h
  | succ n ih =>
    rw [maxSatBelow] at h
    split at h
    · cases h; simp_all
    · have := ih h
      exact ⟨by omega, this.2⟩

theorem maxSatBelow_none {f : Nat → Bool} {n : Nat}
    (h : maxSatBelow f n = none) : ∀ k ≤ n, ¬ f k := by
  induction n with
  | zero =>
    rw [maxSatBelow] at h
    split at h
    · simp at h
    · intro k hk
      interval_cases k
      simp_all
  | succ n ih =>
    rw [maxSatBelow] at h
    split at h
    · simp at h
    · intro k hk
      rcases Nat.lt_or_ge k (n + 1) with hlt | hge
      · exact ih h k (by omega)
      · have : k = n + 1 := by omega
        subst this
        simp_all

theorem greedyAt_length {t m : List Char} {p : Char → Bool}
    (h : greedyAt t p = some m) : 1 ≤ m.length := by
  cases t with
  | nil => simp [greedyAt] at h
  | cons c rest =>
    rw [greedyAt] at h
    split at h
    · rename_i k hk
      cases h
      have hs := maxSatBelow_spec hk
      simp [List.length_take, List.length]
      omega
    · simp at h

theorem execGreedy_length {t m : List Char} {p : Char → Bool}
    (h : execGreedy t p = some m) : 1 ≤ m.length := by
  induction t with
  | nil => simp [execGreedy] at h
  | cons c rest ih =>
    rw [execGreedy] at h
    split at h
    · rename_i m' hm
      cases h
      exact greedyAt_length hm
    · exact ih h

theorem foldCur0_length {s : List Char} {maxLen pos : Nat}
    (hm : 1 ≤ maxLen) (hp : pos < s.length) :
    1 ≤ (foldCur0 s maxLen pos).length := by
  rw [foldCur0]
  simp only [List.length_take, List.length_drop]
  omega

theorem foldCur1_length {s : List Char} {maxLen pos : Nat}
    (hm : 1 ≤ maxLen) (hp : pos < s.length) :
    1 ≤ (foldCur1 s maxLen pos).length := by
  rw [foldCur1]
  split
  · simp only [List.length_append]
    have := foldCur0_length (s := s) hm hp
    omega
  · exact foldCur0_length hm hp

theorem foldAdjust_length {s : List Char} {pos : Nat} {cur : List Char}
    (hc : 1 ≤ cur.length) : 1 ≤ (foldAdjust s pos cur).length := by
  rw [foldAdjust]
  split
  · rename_i m hm'
    exact execLazyEscN_length hm'
  · split
    · split
      · rename_i m hm'
        split
        · rcases (Option.orElse_eq_some' _ _ _).mp hm' with h1 | ⟨h1, h2⟩
          · exact execGreedy_length h1
          · exact execGreedy_length h2
        · exact hc
      · exact hc
    · exact hc

theorem foldStep_length {s : List Char} {maxLen pos : Nat}
    (hm : 1 ≤ maxLen) (hp : pos < s.length) :
    1 ≤ (foldStep s maxLen pos).length :=
  foldAdjust_length (foldCur1_length hm hp)

/-- With enough fuel (`s.length - pos` iterations suffice as soon as
`maxLen ≥ 1`), the fuelled loop computes a fuel-independent value. -/

theorem foldLineAux_canon {s : List Char} {maxLen : Nat} (hm : 1 ≤ maxLen) :
    ∀ fuel pos, s.length - pos ≤ fuel →
      foldLineAux s maxLen fuel pos = foldLineAux s maxLen (s.length - pos) pos := by
  intro fuel
  induction fuel using Nat.strong_induction_on with
  | _ fuel ih =>
    intro pos hfuel
    match fuel with
    | 0 =>
      have hpos : s.length ≤ pos := by omega
      rw [Nat.sub_eq_zero_of_le hpos]
    | f + 1 =>
      by_cases hp : pos < s.length
      · have hL := foldStep_length (s := s) hm hp
        have hsub : s.length - pos = (s.length - pos - 1) + 1 := by omega
        rw [foldLineAux, if_pos hp, hsub, foldLineAux, if_pos hp]
        have h1 : foldLineAux s maxLen f (pos + (foldStep s maxLen pos).length) =
            foldLineAux s maxLen (s.length - (pos + (foldStep s maxLen pos).length))
              (pos + (foldStep s maxLen pos).length) := by
          apply ih f (by omega) _ (by omega)
        have h2 : foldLineAux s maxLen (s.length - pos - 1)
              (pos + (foldStep s maxLen pos).length) =
            foldLineAux s maxLen (s.length - (pos + (foldStep s maxLen pos).length))
              (pos + (foldStep s maxLen pos).length) := by
          rcases Nat.eq_zero_or_pos (s.length - pos - 1) with hz | hpos'
          · rw [hz]
            have : s.length - (pos + (foldStep s maxLen pos).length) = 0 := by omega
            rw [this]
          · apply ih (s.length - pos - 1) (by omega) _ (by omega)
        show foldStep s maxLen pos ::
            foldLineAux s maxLen f (pos + (foldStep s maxLen pos).length) =
          foldStep s maxLen pos ::
            foldLineAux s maxLen (s.length - pos - 1)
              (pos + (foldStep s maxLen pos).length)
        rw [h1, h2]
      · rw [foldLineAux, if_neg hp]
        have : s.length - pos = 0 := by omega
        rw [this, foldLineAux]

/-! ### The regex helpers on line-terminator-free input

When the input contains no line terminator, every `exec` match starts at
index 0 (`.` and `.*?` can reach any position), so the three regex results
are always prefixes of `curLine` and folding only ever cuts the current
line shorter. -/

theorem execLazyEscN_dotfree {t : List Char} (h : ∀ c ∈ t, jsDotChar c) :
    execLazyEscN t = (lazyK t).map (fun k => t.take (k + 2)) := by
  induction t with
  | nil => simp [execLazyEscN, lazyK]
  | cons c rest ih =>
    rw [execLazyEscN]
    match hk : lazyK (c :: rest) with
    | some k => simp [hk]
    | none =>
      simp only [hk, Option.map_none']
      have hrest : lazyK rest = none := by
        rw [lazyK] at hk
        split at hk
        · exact absurd hk (by simp)
        · rw [if_pos (h c (by simp))] at hk
          exact Option.map_eq_none'.mp hk
      rw [ih (fun x hx => h x (by simp [hx])), hrest, Option.map_none']

theorem dotRun_eq_length {t : List Char} (h : ∀ c ∈ t, jsDotChar c) :
    dotRun t = t.length := by
  rw [dotRun, List.takeWhile_eq_self_iff.mpr h]

theorem maxSatBelow_eq_none {f : Nat → Bool} {n : Nat}
    (h : ∀ k ≤ n, ¬ f k) : maxSatBelow f n = none := by
  induction n with
  | zero => rw [maxSatBelow, if_neg (h 0 (by omega))]
  | succ n ih =>
    rw [maxSatBelow, if_neg (h (n + 1) (by omega))]
    exact ih (fun k hk => h k (by omega))

theorem greedyAt_none_cons {c : Char} {rest : List Char} {p : Char → Bool}
    (hdf : ∀ x ∈ c :: rest, jsDotChar x)
    (h : greedyAt (c :: rest) p = none) : greedyAt rest p = none := by
  have hnone : ∀ k ≤ min (dotRun (c :: rest)) ((c :: rest).length - 1),
      ¬ p ((c :: rest).getD k ' ') := by
    rw [greedyAt] at h
    split at h
    · rename_i m hm
      simp [hm] at h
    · rename_i hm
      exact maxSatBelow_none hm
  cases rest with
  | nil => rw [greedyAt]
  | cons d rest' =>
    rw [greedyAt]
    rw [maxSatBelow_eq_none]
    intro k hk
    have hd : dotRun (c :: d :: rest') = (c :: d :: rest').length :=
      dotRun_eq_length hdf
    have := hnone (k + 1) (by
      rw [hd]
      simp only [List.length_cons] at *
      have hdr : dotRun (d :: rest') = (d :: rest').length :=
        dotRun_eq_length (fun x hx => hdf x (by simp [hx]))
      rw [hdr] at hk
      simp only [List.length_cons] at hk
      omega)
    simpa using this

theorem execGreedy_dotfree {t : List Char} {p : Char → Bool}
    (h : ∀ c ∈ t, jsDotChar c) : execGreedy t p = greedyAt t p := by
  induction t with
  | nil => simp [execGreedy, greedyAt]
  | cons c rest ih =>
    rw [execGreedy]
    match hg : greedyAt (c :: rest) p with
    | some m => simp [hg]
    | none =>
      simp only [hg]
      rw [ih (fun x hx => h x (by simp [hx]))]
      exact greedyAt_none_cons h hg

theorem greedyAt_eq_take {t m : List Char} {p : Char → Bool}
    (h : greedyAt t p = some m) : ∃ n, m = t.take n := by
  cases t with
  | nil => simp [greedyAt] at h
  | cons c rest =>
    rw [greedyAt] at h
    split at h
    · rename_i k hk
      cases h
      exact ⟨_, rfl⟩
    · simp at h

theorem take_min_length (L : Nat) (l : List α) :
    l.take (min L l.length) = l.take L := by
  rcases le_or_lt L l.length with hle | hlt
  · rw [Nat.min_eq_left hle]
  · rw [Nat.min_eq_right (by omega), List.take_length,
      List.take_of_length_le (by omega)]

theorem take_append_drop_len (L : Nat) (l : List α) :
    l.take L ++ l.drop ((l.take L).length) = l := by
  rw [List.length_take]
  rcases le_or_lt L l.length with hle | hlt
  · rw [Nat.min_eq_left hle, List.take_append_drop]
  · rw [Nat.min_eq_right (by omega), List.drop_length, List.append_nil,
      List.take_of_length_le (by omega)]

theorem orElse_some {α : Type} {a : α} {f : Unit → Option α} :
    (some a).orElse f = some a := rfl

theorem orElse_none {α : Type} {f : Unit → Option α} :
    (Option.none).orElse f = f () := rfl

theorem foldCur1_take (s : List Char) (maxLen pos : Nat) :
    ∃ L, foldCur1 s maxLen pos = (s.drop pos).take L := by
  rw [foldCur1, foldCur0]
  split
  · rename_i hif
    have hlen1 : ((s.drop pos).take maxLen).length = 1 := by
      rw [hif.1]; rfl
    have hmin : min maxLen (s.drop pos).length = 1 := by
      rw [← List.length_take]; exact hlen1
    have hrest2 : 2 ≤ (s.drop pos).length := by
      have := hif.2
      rw [hlen1] at this
      simp only [List.length_drop]
      omega
    have hmax1 : maxLen = 1 := by
      rcases le_or_lt maxLen (s.drop pos).length with hle | hlt
      · rw [Nat.min_eq_left hle] at hmin; exact hmin
      · rw [Nat.min_eq_right (by omega)] at hmin; omega
    refine ⟨2, ?_⟩
    rw [hlen1, hmax1]
    have hdd : s.drop (pos + 1) = (s.drop pos).drop 1 := by
      rw [List.drop_drop]
    rw [hdd]
    exact (List.take_add (s.drop pos) 1 1).symm
  · exact ⟨maxLen, rfl⟩

theorem foldAdjust_take {s : List Char} {pos L : Nat}
    (hdf : ∀ c ∈ s.drop pos, jsDotChar c) :
    ∃ L', foldAdjust s pos ((s.drop pos).take L) = (s.drop pos).take L' := by
  set rest := s.drop pos with hrest
  have hdfc : ∀ c ∈ rest.take L, jsDotChar c := fun c hc =>
    hdf c (List.mem_of_mem_take hc)
  rw [foldAdjust]
  rw [execLazyEscN_dotfree hdfc]
  match hk : lazyK (rest.take L) with
  | some k =>
    simp only [Option.map_some']
    exact ⟨min (k + 2) L, by rw [List.take_take]⟩
  | none =>
    simp only [Option.map_none']
    split
    · rw [execGreedy_dotfree hdfc, execGreedy_dotfree hdfc]
      match hg : greedyAt (rest.take L) jsWsChar with
      | some m =>
        simp only [hg, orElse_some]
        rcases greedyAt_eq_take hg with ⟨n, hn⟩
        split
        · exact ⟨min n L, by rw [hn, List.take_take]⟩
        · exact ⟨L, rfl⟩
      | none =>
        simp only [hg, orElse_none]
        match hg2 : greedyAt (rest.take L) jsSpecialChar with
        | some m =>
          simp only [hg2]
          rcases greedyAt_eq_take hg2 with ⟨n, hn⟩
          split
          · exact ⟨min n L, by rw [hn, List.take_take]⟩
          · exact ⟨L, rfl⟩
        | none =>
          simp only [hg2]
          exact ⟨L, rfl⟩
    · exact ⟨L, rfl⟩

theorem foldStep_take {s : List Char} {maxLen pos : Nat}
    (hdf : ∀ c ∈ s.drop pos, jsDotChar c) :
    ∃ L, foldStep s maxLen pos = (s.drop pos).take L := by
  rcases foldCur1_take s maxLen pos with ⟨L1, h1⟩
  rw [foldStep, h1]
  exact foldAdjust_take hdf

/-- Main concatenation invariant: on line-terminator-free input every pushed
line is a prefix slice of the remaining input, so the lines concatenate back
to the input. -/

theorem foldLineAux_flatten {s : List Char} {maxLen : Nat}
    (hdf : ∀ c ∈ s, jsDotChar c) (hm : 1 ≤ maxLen) :
    ∀ fuel pos, s.length - pos ≤ fuel →
      (foldLineAux s maxLen fuel pos).flatten = s.drop pos := by
  intro fuel
  induction fuel with
  | zero =>
    intro pos hfuel
    rw [foldLineAux, List.flatten_nil, eq_comm, List.drop_eq_nil_iff]
    omega
  | succ f ih =>
    intro pos hfuel
    by_cases hp : pos < s.length
    · rw [foldLineAux, if_pos hp, List.flatten_cons]
      have hL := foldStep_length (s := s) hm hp
      rw [ih (pos + (foldStep s maxLen pos).length) (by omega)]
      rcases @foldStep_take s maxLen pos
        (fun c hc => hdf c (List.mem_of_mem_drop hc)) with ⟨L, hTake⟩
      have hdd : s.drop (pos + ((s.drop pos).take L).length) =
          ((s.drop pos).drop ((s.drop pos).take L).length) := by
        rw [List.drop_drop, Nat.add_comm]
      rw [hTake, hdd]
      exact take_append_drop_len L _
    · rw [foldLineAux, if_neg hp, List.flatten_nil, eq_comm,
        List.drop_eq_nil_iff]
      omega

/-! ### Claim C3 and C10 theorems -/

/-- C3: the claim states that for every value containing the two-character
escape sequence backslash-`n` and every fold width ≥ 2, `foldLine` never
splits the pair between the backslash and the `n`.  The code is wrong: the
guard `curLine.substring(-1) === "\\"` compares the whole line (substring
clamps the negative index to 0) instead of its last character, so the
protection loop is dead unless the line is exactly `"\\"`.  Evaluating
`foldLine` on the string `a\n` (characters `a`, backslash, `n`) at fold
width 2 produces a line ending in the backslash followed by a line starting
with `n`: the escape pair is split. -/

theorem foldLine_breaks_escape_pair :
    foldLine ['a', '\\', 'n'] 2 = [['a', '\\'], ['n']] := by decide

/-- C10 (counterexample): the concatenation of the folded lines is not
always the input.  `exec` matches need not start at index 0 when the input
contains a line terminator (`.` does not match `\n`), but `foldLine` uses
`match[0]` as if they did: on the input `"\nab\\ncd"` the leading newline is
dropped and a character is duplicated. -/

theorem foldLine_flatten_ne_input :
    (foldLine "\nab\\ncd".data 76).flatten ≠ "\nab\\ncd".data := by decide

/-- C10 (amended): for every input string and fold width `maxLen ≥ 1` the
folding loop terminates (fuel `s.length` suffices, and any larger fuel
yields the same lines), and for every input containing no line-terminator
character the concatenation of the returned lines is exactly the input. -/

theorem foldLine_terminates_and_preserves_content (s : List Char)
    (maxLen : Nat) (h : 1 ≤ maxLen) :
    (∀ fuel, s.length ≤ fuel →
      foldLineAux s maxLen fuel 0 = foldLine s maxLen) ∧
    ((∀ c ∈ s, jsDotChar c) → (foldLine s maxLen).flatten = s) := by
  constructor
  · intro fuel hf
    rw [foldLine, foldLineAux_canon h fuel 0 (by omega),
      foldLineAux_canon h s.length 0 (by omega)]
  · intro hdf
    have := foldLineAux_flatten hdf h s.length 0 (by omega)
    rw [foldLine]
    simpa using this

/-- Witness for the amended C10 theorem at a concrete input. -/

theorem foldLine_terminates_and_preserves_content_witness :
    (1 ≤ 3 ∧
      ((∀ fuel, ("ab cd".data).length ≤ fuel →
        foldLineAux "ab cd".data 3 fuel 0 = foldLine "ab cd".data 3) ∧
      ((∀ c ∈ "ab cd".data, jsDotChar c) →
        (foldLine "ab cd".data 3).flatten = "ab cd".data))) :=
  ⟨by decide, foldLine_terminates_and_preserves_content "ab cd".data 3 (by decide)⟩

theorem jsGet_jsSet {β : Type} (m : List (String × β)) (k k' : String) (v : β) :
    jsGet (jsSet m k v) k' = if k' = k then some v else jsGet m k' := by
  induction m with
  | nil =>
    simp only [jsSet, jsGet]
    by_cases h : k' = k
    · simp [h]
    · simp [h, Ne.symm h]
  | cons p rest ih =>
    obtain ⟨k₀, v₀⟩ := p
    simp only [jsSet]
    by_cases h0 : k₀ = k
    · subst h0
      simp only [if_pos rfl, jsGet]
      by_cases h' : k₀ = k'
      · subst h'; simp
      · simp [h', Ne.symm h']
    · simp only [if_neg h0, jsGet]
      by_cases hk0 : k₀ = k'
      · subst hk0
        simp [Ne.symm h0, h0]
      · simp [hk0, ih]

theorem jsGet_append_single {β : Type} {m : List (String × β)} {k : String}
    {v : β} (h : jsGet m k = none) (k' : String) :
    jsGet (m ++ [(k, v)]) k' = if k' = k then some v else jsGet m k' := by
  induction m with
  | nil =>
    simp only [List.nil_append, jsGet]
    by_cases h' : k' = k
    · subst h'; simp
    · simp [h', Ne.symm h']
  | cons p rest ih =>
    obtain ⟨k₀, v₀⟩ := p
    simp only [jsGet] at h
    by_cases h0 : k₀ = k
    · simp [h0] at h
    · simp only [if_neg h0] at h
      simp only [List.cons_append, jsGet]
      by_cases hk0 : k₀ = k'
      · simp [hk0, if_neg (fun hh => h0 (hk0.trans hh))]
      · simp [hk0, ih h]

theorem jsGet2_jsSetDeep (m : TrMap) (ctx id : String) (v : Entry)
    (ctx' id' : String) :
    jsGet2 (jsSetDeep m ctx id v) ctx' id' =
      if ctx' = ctx ∧ id' = id then some v else jsGet2 m ctx' id' := by
  rw [jsSetDeep, jsGet2]
  match hm : jsGet m ctx with
  | some inner =>
    simp only [hm, Option.isSome_some, if_true, Option.getD_some]
    rw [jsGet_jsSet]
    by_cases hc : ctx' = ctx
    · rw [if_pos hc, Option.some_bind, jsGet_jsSet, jsGet2, hc, hm,
        Option.some_bind]
      by_cases hi : id' = id
      · simp [hi]
      · simp [hi]
    · rw [if_neg hc, if_neg (fun hh => hc hh.1), jsGet2]
  | none =>
    simp only [hm, Option.isSome_none, Bool.false_eq_true, if_false,
      Option.getD_none]
    rw [jsGet_jsSet]
    by_cases hc : ctx' = ctx
    · rw [if_pos hc, Option.some_bind, jsGet2, hc, hm, Option.none_bind]
      simp only [jsSet, jsGet]
      by_cases hi : id' = id
      · simp [hi]
      · simp [hi, Ne.symm hi]
    · rw [if_neg hc, jsGet_append_single hm, if_neg hc, jsGet2,
        if_neg (fun hh => hc hh.1)]

theorem lastPutAux_acc (obs : Bool) (ctx id : String) (tokens : List Entry)
    (acc : Option Entry) :
    lastPutAux obs ctx id tokens acc =
      oGetD (lastPutAux obs ctx id tokens none) acc := by
  induction tokens generalizing acc with
  | nil => rfl
  | cons tok rest ih =>
    rw [lastPutAux, lastPutAux]
    have h1 := ih (if tok.obsolete = obs ∧ tok.msgctxt = ctx ∧ tok.msgid = id then
      some (clearObs tok) else acc)
    have h2 := ih (if tok.obsolete = obs ∧ tok.msgctxt = ctx ∧ tok.msgid = id then
      some (clearObs tok) else none)
    rw [h1, h2]
    cases lastPutAux obs ctx id rest none with
    | some e => rfl
    | none =>
      rw [oGetD_none, oGetD_none]
      split
      · rfl
      · rfl

theorem lastPut_cons (obs : Bool) (ctx id : String) (tok : Entry)
    (rest : List Entry) :
    lastPut (tok :: rest) obs ctx id =
      oGetD (lastPut rest obs ctx id)
        (if tok.obsolete = obs ∧ tok.msgctxt = ctx ∧ tok.msgid = id then
          some (clearObs tok)
        else none) := by
  rw [lastPut, lastPutAux, lastPutAux_acc, lastPut]

/-- Main characterization of a successful `_normalize` run: each of the two
maps holds, at each key, the last matching stored token, falling back to
the initial table. -/

theorem normGo_lookup (v : Bool) (tokens : List Entry) :
    ∀ (t : Table) (np : Nat) (res : Table × Nat),
      normGo v tokens t np = .ok res → ∀ ctx id,
      jsGet2 res.1.translations ctx id =
        oGetD (lastPut tokens false ctx id) (jsGet2 t.translations ctx id) ∧
      jsGet2 res.1.obsolete ctx id =
        oGetD (lastPut tokens true ctx id) (jsGet2 t.obsolete ctx id) := by
  induction tokens with
  | nil =>
    intro t np res h ctx id
    rw [normGo] at h
    cases h
    exact ⟨rfl, rfl⟩
  | cons tok rest ih =>
    intro t np res h ctx id
    rw [normGo] at h
    by_cases ho : tok.obsolete
    · rw [if_pos ho] at h
      have hmatchF : ¬ (tok.obsolete = false ∧ tok.msgctxt = ctx ∧ tok.msgid = id) := by
        rw [ho]; simp
      rcases ih _ _ _ h ctx id with ⟨htr, hob⟩
      constructor
      · rw [htr, lastPut_cons, if_neg hmatchF]
        cases lastPut rest false ctx id with
        | some e => rfl
        | none => rfl
      · rw [hob, lastPut_cons]
        cases lastPut rest true ctx id with
        | some e => rfl
        | none =>
          simp only [oGetD_none]
          show jsGet2 (jsSetDeep t.obsolete tok.msgctxt tok.msgid (clearObs tok)) ctx id = _
          rw [jsGet2_jsSetDeep]
          by_cases hmatch : ctx = tok.msgctxt ∧ id = tok.msgid
          · rw [if_pos hmatch,
              if_pos ⟨ho, hmatch.1.symm, hmatch.2.symm⟩, oGetD_some]
          · rw [if_neg hmatch,
              if_neg (fun hc => hmatch ⟨hc.2.1.symm, hc.2.2.symm⟩), oGetD_none]
    · rw [if_neg ho] at h
      have ho' : tok.obsolete = false := by simpa using ho
      split at h
      · simp at h
      · rcases ih _ _ _ h ctx id with ⟨htr, hob⟩
        constructor
        · rw [htr, lastPut_cons]
          cases lastPut rest false ctx id with
          | some e => rfl
          | none =>
            simp only [oGetD_none]
            show jsGet2 (jsSetDeep t.translations tok.msgctxt tok.msgid tok) ctx id = _
            rw [jsGet2_jsSetDeep]
            by_cases hmatch : ctx = tok.msgctxt ∧ id = tok.msgid
            · rw [if_pos hmatch,
                if_pos ⟨ho', hmatch.1.symm, hmatch.2.symm⟩, oGetD_some]
              show some tok = some (clearObs tok)
              rw [clearObs]
              cases tok
              simp_all
            · rw [if_neg hmatch,
                if_neg (fun hc => hmatch ⟨hc.2.1.symm, hc.2.2.symm⟩), oGetD_none]
        · rw [hob, lastPut_cons]
          have hmatchF : ¬ (tok.obsolete = true ∧ tok.msgctxt = ctx ∧ tok.msgid = id) := by
            rw [ho']; simp
          rw [if_neg hmatchF]
          cases lastPut rest true ctx id with
          | some e => rfl
          | none => rfl

@[simp] theorem oGetD_none_right {α : Type} (o : Option α) : oGetD o none = o := by
  cases o <;> rfl

theorem firstHeaderTok_cons_skip {tok : Entry} {rest : List Entry}
    (hpred : (!tok.obsolete && tok.msgctxt == "" && tok.msgid == "") = false) :
    firstHeaderTok (tok :: rest) = firstHeaderTok rest := by
  rw [firstHeaderTok, firstHeaderTok, List.find?_cons, hpred]

theorem firstHeaderTok_cons_hit {tok : Entry} {rest : List Entry}
    (hpred : (!tok.obsolete && tok.msgctxt == "" && tok.msgid == "") = true) :
    firstHeaderTok (tok :: rest) = some tok := by
  rw [firstHeaderTok, List.find?_cons, hpred]

/-- Headers of a successful `_normalize` run: taken from the first
header-shaped token (or kept from the initial table if already set). -/

theorem normGo_headers (v : Bool) (tokens : List Entry) :
    ∀ (t : Table) (np : Nat) (res : Table × Nat),
      normGo v tokens t np = .ok res →
      res.1.headers = oGetD t.headers
        ((firstHeaderTok tokens).map (fun tok => parseHeader (tok.msgstr.headD ""))) := by
  induction tokens with
  | nil =>
    intro t np res h
    rw [normGo] at h
    cases h
    rw [firstHeaderTok, List.find?_nil, Option.map_none', oGetD_none_right]
  | cons tok rest ih =>
    intro t np res h
    rw [normGo] at h
    by_cases ho : tok.obsolete
    · rw [if_pos ho] at h
      have hpred : (!tok.obsolete && tok.msgctxt == "" && tok.msgid == "") = false := by
        rw [ho]; rfl
      rw [firstHeaderTok_cons_skip hpred, ih _ _ _ h]
    · rw [if_neg ho] at h
      have ho' : tok.obsolete = false := by simpa using ho
      split at h
      · simp at h
      · have hres := ih _ _ _ h
        by_cases hcond : t.headers.isNone = true ∧ tok.msgctxt = "" ∧ tok.msgid = ""
        · have hpred : (!tok.obsolete && tok.msgctxt == "" && tok.msgid == "") = true := by
            rw [ho', hcond.2.1, hcond.2.2]; rfl
          rw [firstHeaderTok_cons_hit hpred, hres]
          show oGetD (normHnp t tok np).1 _ = _
          rw [normHnp, if_pos hcond, Option.isNone_iff_eq_none.mp hcond.1]
          rfl
        · have hhd : (normHnp t tok np).1 = t.headers := by
            rw [normHnp, if_neg hcond]
          rw [hres]
          show oGetD (normHnp t tok np).1 _ = _
          rw [hhd]
          rcases hth : t.headers with _ | hs
          · have hnn : t.headers.isNone = true := by rw [hth]; rfl
            have hpred : (!tok.obsolete && tok.msgctxt == "" && tok.msgid == "") = false := by
              by_contra hp
              simp only [Bool.not_eq_false, Bool.and_eq_true, Bool.not_eq_true',
                beq_iff_eq] at hp
              exact hcond ⟨hnn, hp.1.2, hp.2⟩
            rw [firstHeaderTok_cons_skip hpred]
          · rw [oGetD_some, oGetD_some]

theorem lastPut_isSome_of_mem {tokens : List Entry} {tok : Entry} {obs : Bool}
    (hmem : tok ∈ tokens) (hobs : tok.obsolete = obs) :
    (lastPut tokens obs tok.msgctxt tok.msgid).isSome := by
  induction tokens with
  | nil => simp at hmem
  | cons a rest ih =>
    rw [lastPut_cons]
    rcases List.mem_cons.mp hmem with heq | hmem'
    · subst heq
      cases hrest : lastPut rest obs tok.msgctxt tok.msgid with
      | some e => rw [oGetD_some]; rfl
      | none =>
        rw [oGetD_none, if_pos ⟨hobs, rfl, rfl⟩]
        rfl
    · have := ih hmem'
      cases hrest : lastPut rest obs tok.msgctxt tok.msgid with
      | some e => rw [oGetD_some]; rfl
      | none => rw [hrest] at this; simp at this

/-- Keys of processed non-obsolete tokens are present afterwards. -/

theorem normGo_present {v : Bool} {tokens : List Entry} {t : Table} {np : Nat}
    {res : Table × Nat} (h : normGo v tokens t np = .ok res)
    {tok : Entry} (hmem : tok ∈ tokens) (hobs : tok.obsolete = false) :
    (jsGet2 res.1.translations tok.msgctxt tok.msgid).isSome := by
  rcases normGo_lookup v tokens t np res h tok.msgctxt tok.msgid with ⟨htr, _⟩
  rw [htr]
  have hsome := lastPut_isSome_of_mem hmem hobs
  cases hlp : lastPut tokens false tok.msgctxt tok.msgid with
  | some e => rw [oGetD_some]; rfl
  | none => rw [hlp] at hsome; simp at hsome

/-- Processing a concatenation = processing the parts in sequence. -/

theorem normGo_append (v : Bool) (l₁ l₂ : List Entry) :
    ∀ (t : Table) (np : Nat),
      normGo v (l₁ ++ l₂) t np =
        (normGo v l₁ t np).bind (fun r => normGo v l₂ r.1 r.2) := by
  induction l₁ with
  | nil => intro t np; rfl
  | cons tok rest ih =>
    intro t np
    rw [List.cons_append, normGo, normGo]
    by_cases ho : tok.obsolete
    · rw [if_pos ho, if_pos ho, ih]
    · rw [if_neg ho, if_neg ho]
      cases validateToken v tok ((jsGet t.translations tok.msgctxt).getD [])
          tok.msgctxt (normHnp t tok np).2 with
      | some e => rfl
      | none => rw [ih]

/-- With validation off, `_normalize` never throws. -/

theorem normGo_false_ok (tokens : List Entry) :
    ∀ (t : Table) (np : Nat), ∃ res, normGo false tokens t np = .ok res := by
  induction tokens with
  | nil => intro t np; exact ⟨(t, np), rfl⟩
  | cons tok rest ih =>
    intro t np
    rw [normGo]
    by_cases ho : tok.obsolete
    · rw [if_pos ho]; exact ih _ _
    · rw [if_neg ho]
      have hval : validateToken false tok ((jsGet t.translations tok.msgctxt).getD [])
          tok.msgctxt (normHnp t tok np).2 = none := by
        rw [validateToken, if_pos (by simp)]
      rw [hval]
      exact ih _ _

/-! ### Claim C2 theorems -/

/-- C2 (counterexample): the claim states the header entry (context `""`,
msgid `""`) is never present in `translations` after normalization.  In
fact `_normalize` stores it there like any other entry (the PO compiler
even reads it back from `translations[""][""]`): normalizing a single
header entry leaves it in the translations map. -/

theorem normalize_keeps_header_in_translations :
    ((normalize "utf-8" false
        [({ msgid := "", msgstr := ["Language: fr\n"] } : Entry)]).toOption.bind
      (fun t => jsGet2 t.translations "" "")).isSome := by decide

/-- C2 (amended): after a successful `_normalize` run the headers mapping
is parsed from the first non-obsolete entry with empty context and empty
msgid, but that entry is not removed: `translations[""][""]` holds the last
such entry, and is in particular present whenever the input has a header
entry. -/

theorem normalize_header_extracted_and_kept (cs : String) (v : Bool)
    (tokens : List Entry) (t : Table) (h : normalize cs v tokens = .ok t) :
    t.headers = (firstHeaderTok tokens).map
      (fun tok => parseHeader (tok.msgstr.headD "")) ∧
    jsGet2 t.translations "" "" = lastPut tokens false "" "" ∧
    (firstHeaderTok tokens ≠ none → jsGet2 t.translations "" "" ≠ none) := by
  rw [normalize] at h
  cases hgo : normGo v tokens
      { charset := cs, headers := none, translations := [], obsolete := [] } 1 with
  | error e => rw [hgo] at h; simp [Except.map] at h
  | ok res =>
    rw [hgo] at h
    have ht : res.1 = t := by simpa [Except.map] using h
    have hlk := (normGo_lookup v tokens _ _ _ hgo "" "").1
    have hhd := normGo_headers v tokens _ _ _ hgo
    rw [ht] at hlk hhd
    have hlk' : jsGet2 t.translations "" "" = lastPut tokens false "" "" := by
      rw [hlk]
      show oGetD _ (jsGet2 [] "" "") = _
      rw [jsGet2]
      show oGetD _ none = _
      rw [oGetD_none_right]
    refine ⟨by rw [hhd]; rfl, hlk', ?_⟩
    intro hfh
    cases hfh' : firstHeaderTok tokens with
    | none => exact absurd hfh' hfh
    | some tok =>
      have hmem : tok ∈ tokens := List.mem_of_find?_eq_some hfh'
      have hpred := List.find?_some hfh'
      simp only [Bool.and_eq_true, Bool.not_eq_true', beq_iff_eq] at hpred
      have hsome := lastPut_isSome_of_mem hmem hpred.1.1
      rw [hpred.1.2, hpred.2] at hsome
      rw [hlk']
      intro hnone
      rw [hnone] at hsome
      simp at hsome

/-- Witness for the amended C2 theorem at a concrete input. -/

theorem normalize_header_extracted_and_kept_witness :
    normalize "utf-8" false [c2WitTok] = .ok c2WitTable ∧
    (c2WitTable.headers = (firstHeaderTok [c2WitTok]).map
      (fun tok => parseHeader (tok.msgstr.headD "")) ∧
    jsGet2 c2WitTable.translations "" "" = lastPut [c2WitTok] false "" "" ∧
    (firstHeaderTok [c2WitTok] ≠ none →
      jsGet2 c2WitTable.translations "" "" ≠ none)) :=
  ⟨by decide, normalize_header_extracted_and_kept "utf-8" false _ _ (by decide)⟩

/-! ### Claim C4 theorems -/

/-- If a successful prefix run reaches a token whose key was already
inserted by an earlier non-obsolete token, the full run fails with the
Duplicate error raised at that step. -/

theorem normGo_dup_step {tokens : List Entry} {i j : Nat} (hij : i < j)
    (hj : j < tokens.length)
    (hio : tokens[i].obsolete = false) (hjo : tokens[j].obsolete = false)
    (hctx : tokens[i].msgctxt = tokens[j].msgctxt)
    (hid : tokens[i].msgid = tokens[j].msgid)
    {t : Table} {np : Nat} {res : Table × Nat}
    (hpre : normGo true (tokens.take j) t np = .ok res) :
    normGo true tokens t np =
      .error (.duplicateMsgid tokens[j].msgid tokens[j].msgctxt) := by
  have hi : i < tokens.length := by omega
  conv_lhs => rw [← List.take_append_drop j tokens]
  rw [normGo_append, hpre]
  show normGo true (tokens.drop j) res.1 res.2 = _
  rw [List.drop_eq_getElem_cons hj, normGo, if_neg (by rw [hjo]; simp)]
  have hpres : (jsGet2 res.1.translations tokens[j].msgctxt tokens[j].msgid).isSome := by
    have hilen : i < (tokens.take j).length := by
      rw [List.length_take]; omega
    have hmem : tokens[i] ∈ tokens.take j := by
      have h1 : (tokens.take j)[i] = tokens[i] := List.getElem_take tokens
      rw [← h1]
      exact List.getElem_mem _
    have := normGo_present hpre hmem hio
    rw [hctx, hid] at this
    exact this
  obtain ⟨inner, hinner, hsome⟩ : ∃ inner,
      jsGet res.1.translations tokens[j].msgctxt = some inner ∧
      (jsGet inner tokens[j].msgid).isSome := by
    rw [jsGet2] at hpres
    cases hg : jsGet res.1.translations tokens[j].msgctxt with
    | none => rw [hg] at hpres; simp at hpres
    | some inner => rw [hg] at hpres; exact ⟨inner, rfl, by simpa using hpres⟩
  have hval : validateToken true tokens[j]
      ((jsGet res.1.translations tokens[j].msgctxt).getD [])
      tokens[j].msgctxt (normHnp res.1 tokens[j] res.2).2 =
      some (.duplicateMsgid tokens[j].msgid tokens[j].msgctxt) := by
    rw [validateToken, if_neg (by simp), hinner]
    simp only [Option.getD_some]
    rw [if_pos hsome]
  rw [hval]

/-- C4 (amended): for an input with two non-obsolete entries sharing the
same (context, msgid) key and strict validation on, parsing fails; the
error is the Duplicate error whenever every entry before the second
occurrence validated cleanly (an earlier invalid entry can otherwise fail
first with its own error).  With validation off, parsing succeeds and the
key maps to the last matching entry (last write wins). -/

theorem normalize_duplicate_handling (cs : String) (tokens : List Entry)
    (i j : Nat) (hij : i < j) (hj : j < tokens.length)
    (hio : tokens[i].obsolete = false) (hjo : tokens[j].obsolete = false)
    (hctx : tokens[i].msgctxt = tokens[j].msgctxt)
    (hid : tokens[i].msgid = tokens[j].msgid) :
    (∃ e, normalize cs true tokens = .error e) ∧
    ((∃ pt, normalize cs true (tokens.take j) = .ok pt) →
      normalize cs true tokens =
        .error (.duplicateMsgid tokens[j].msgid tokens[j].msgctxt)) ∧
    (∃ t, normalize cs false tokens = .ok t ∧
      jsGet2 t.translations tokens[j].msgctxt tokens[j].msgid =
        lastPut tokens false tokens[j].msgctxt tokens[j].msgid ∧
      jsGet2 t.translations tokens[j].msgctxt tokens[j].msgid ≠ none) := by
  have hb : (∃ pt, normalize cs true (tokens.take j) = .ok pt) →
      normalize cs true tokens =
        .error (.duplicateMsgid tokens[j].msgid tokens[j].msgctxt) := by
    rintro ⟨pt, hpt⟩
    rw [normalize] at hpt ⊢
    cases hgo : normGo true (tokens.take j)
        { charset := cs, headers := none, translations := [], obsolete := [] } 1 with
    | error e => rw [hgo] at hpt; simp [Except.map] at hpt
    | ok res =>
      rw [normGo_dup_step hij hj hio hjo hctx hid hgo]
      rfl
  refine ⟨?_, hb, ?_⟩
  · cases hres : normalize cs true tokens with
    | error e => exact ⟨e, rfl⟩
    | ok t =>
      exfalso
      rw [normalize] at hres
      cases hgo : normGo true tokens
          { charset := cs, headers := none, translations := [], obsolete := [] } 1 with
      | error e => rw [hgo] at hres; simp [Except.map] at hres
      | ok res =>
        have hpre : ∃ r, normGo true (tokens.take j)
            { charset := cs, headers := none, translations := [], obsolete := [] } 1 =
            .ok r := by
          have hfull := hgo
          conv at hfull => lhs; rw [← List.take_append_drop j tokens]
          rw [normGo_append] at hfull
          cases hp : normGo true (tokens.take j)
              { charset := cs, headers := none, translations := [], obsolete := [] } 1 with
          | error e => rw [hp] at hfull; simp [Except.bind] at hfull
          | ok r => exact ⟨r, rfl⟩
        obtain ⟨r, hr⟩ := hpre
        have := normGo_dup_step hij hj hio hjo hctx hid hr
        rw [this] at hgo
        simp at hgo
  · obtain ⟨res, hres⟩ := normGo_false_ok tokens
      { charset := cs, headers := none, translations := [], obsolete := [] } 1
    refine ⟨res.1, by rw [normalize, hres]; rfl, ?_, ?_⟩
    · have := (normGo_lookup false tokens _ _ _ hres tokens[j].msgctxt tokens[j].msgid).1
      rw [this]
      show oGetD _ ((jsGet ([] : TrMap) _).bind _) = _
      rw [jsGet]
      show oGetD _ none = _
      rw [oGetD_none_right]
    · have := (normGo_lookup false tokens _ _ _ hres tokens[j].msgctxt tokens[j].msgid).1
      rw [this]
      have hsome := lastPut_isSome_of_mem (List.getElem_mem hj) hjo
      cases hlp : lastPut tokens false tokens[j].msgctxt tokens[j].msgid with
      | none => rw [hlp] at hsome; simp at hsome
      | some e => rw [oGetD_some]; simp

/-- C4 (counterexample): the claim says an input with two entries sharing a
key always fails with a Duplicate error under strict validation.  Here an
earlier entry (msgid "a", zero msgstr values) fails its singular count
check first, so parsing fails with a Range error instead, although msgid
"h" occurs twice. -/

theorem normalize_duplicate_masked_by_range :
    normalize "utf-8" true
      [({ msgid := "a", msgstr := [] } : Entry),
       ({ msgid := "h", msgstr := ["1"] } : Entry),
       ({ msgid := "h", msgstr := ["2"] } : Entry)] =
      .error (.singularRange 0 "a" "") := by decide

/-- Witness for the amended C4 theorem at a concrete input. -/

theorem normalize_duplicate_handling_witness :
    (∃ e, normalize "utf-8" true c4WitToks = .error e) ∧
    ((∃ pt, normalize "utf-8" true (c4WitToks.take 1) = .ok pt) →
      normalize "utf-8" true c4WitToks =
        .error (.duplicateMsgid c4WitToks[1].msgid c4WitToks[1].msgctxt)) ∧
    (∃ t, normalize "utf-8" false c4WitToks = .ok t ∧
      jsGet2 t.translations c4WitToks[1].msgctxt c4WitToks[1].msgid =
        lastPut c4WitToks false c4WitToks[1].msgctxt c4WitToks[1].msgid ∧
      jsGet2 t.translations c4WitToks[1].msgctxt c4WitToks[1].msgid ≠ none) :=
  normalize_duplicate_handling "utf-8" c4WitToks 0 1 (by decide) (by decide)
    (by decide) (by decide) (by decide) (by decide)

theorem isOkE_map {ε α β : Type} (x : Except ε α) (f : α → β) :
    isOkE (x.map f) = isOkE x := by
  cases x <;> rfl

/-- The obsolete map of the running table influences neither success nor
any other component of the result. -/

theorem normGo_obs_indep (v : Bool) (tokens : List Entry) :
    ∀ (t₁ t₂ : Table) (np : Nat), t₁.charset = t₂.charset →
      t₁.headers = t₂.headers → t₁.translations = t₂.translations →
      (normGo v tokens t₁ np).map (fun r => (eraseObsT r.1, r.2)) =
        (normGo v tokens t₂ np).map (fun r => (eraseObsT r.1, r.2)) := by
  induction tokens with
  | nil =>
    intro t₁ t₂ np hc hh ht
    rw [normGo, normGo]
    show Except.ok (eraseObsT t₁, np) = Except.ok (eraseObsT t₂, np)
    rw [eraseObsT, eraseObsT]
    obtain ⟨c1, h1, tr1, o1⟩ := t₁
    obtain ⟨c2, h2, tr2, o2⟩ := t₂
    simp only at hc hh ht
    rw [hc, hh, ht]
  | cons tok rest ih =>
    intro t₁ t₂ np hc hh ht
    rw [normGo, normGo]
    by_cases ho : tok.obsolete
    · rw [if_pos ho, if_pos ho]
      exact ih _ _ np hc hh ht
    · rw [if_neg ho, if_neg ho]
      have hnp : normHnp t₁ tok np = normHnp t₂ tok np := by
        rw [normHnp, normHnp, hh]
      cases hval : validateToken v tok ((jsGet t₁.translations tok.msgctxt).getD [])
          tok.msgctxt (normHnp t₁ tok np).2 with
      | some e =>
        have hval2 : validateToken v tok ((jsGet t₂.translations tok.msgctxt).getD [])
            tok.msgctxt (normHnp t₂ tok np).2 = some e := by
          rw [← ht, ← hnp]
          exact hval
        rw [hval2]
      | none =>
        have hval2 : validateToken v tok ((jsGet t₂.translations tok.msgctxt).getD [])
            tok.msgctxt (normHnp t₂ tok np).2 = none := by
          rw [← ht, ← hnp]
          exact hval
        rw [hval2, hnp]
        exact ih _ _ _ hc (by show (normHnp t₂ tok np).1 = (normHnp t₂ tok np).1; rfl)
          (by show jsSetDeep t₁.translations _ _ _ = jsSetDeep t₂.translations _ _ _; rw [ht])

/-- Obsolete tokens never affect whether `_normalize` succeeds. -/

theorem normGo_filter_obsolete (v : Bool) (tokens : List Entry) :
    ∀ (t : Table) (np : Nat),
      isOkE (normGo v tokens t np) =
        isOkE (normGo v (tokens.filter (fun tok => !tok.obsolete)) t np) := by
  induction tokens with
  | nil => intro t np; rfl
  | cons tok rest ih =>
    intro t np
    by_cases ho : tok.obsolete
    · have hf : (tok :: rest).filter (fun tok => !tok.obsolete) =
          rest.filter (fun tok => !tok.obsolete) :=
        List.filter_cons_of_neg (by simp [ho])
      rw [hf, normGo, if_pos ho]
      have h1 := normGo_obs_indep v rest
        { t with obsolete := jsSetDeep t.obsolete tok.msgctxt tok.msgid (clearObs tok) }
        t np rfl rfl rfl
      have h2 : isOkE (normGo v rest
          { t with obsolete := jsSetDeep t.obsolete tok.msgctxt tok.msgid (clearObs tok) } np) =
          isOkE (normGo v rest t np) := by
        rw [← isOkE_map (normGo v rest _ np) (fun r => (eraseObsT r.1, r.2)), h1,
          isOkE_map]
      rw [h2]
      exact ih t np
    · have hf : (tok :: rest).filter (fun tok => !tok.obsolete) =
          tok :: rest.filter (fun tok => !tok.obsolete) :=
        List.filter_cons_of_pos (by simp [ho])
      rw [hf, normGo, normGo, if_neg ho, if_neg ho]
      cases validateToken v tok ((jsGet t.translations tok.msgctxt).getD [])
          tok.msgctxt (normHnp t tok np).2 with
      | some e => rfl
      | none => exact ih _ _

/-- C8: obsolete entries go only to the obsolete map (bypassing validation:
filtering them out does not change whether parsing succeeds), non-obsolete
entries go only to the translations map, and on success each map holds
exactly the last matching token of its kind, so entries of the two kinds
sharing a key coexist under any validation setting. -/

theorem normalize_obsolete_isolation (cs : String) (v : Bool)
    (tokens : List Entry) :
    isOkE (normalize cs v tokens) =
      isOkE (normalize cs v (tokens.filter (fun tok => !tok.obsolete))) ∧
    (∀ t, normalize cs v tokens = .ok t → ∀ ctx id,
      jsGet2 t.obsolete ctx id = lastPut tokens true ctx id ∧
      jsGet2 t.translations ctx id = lastPut tokens false ctx id) := by
  constructor
  · rw [normalize, normalize, isOkE_map, isOkE_map]
    exact normGo_filter_obsolete v tokens _ 1
  · intro t ht ctx id
    rw [normalize] at ht
    cases hgo : normGo v tokens
        { charset := cs, headers := none, translations := [], obsolete := [] } 1 with
    | error e => rw [hgo] at ht; simp [Except.map] at ht
    | ok res =>
      rw [hgo] at ht
      have hres : res.1 = t := by simpa [Except.map] using ht
      rcases normGo_lookup v tokens _ _ _ hgo ctx id with ⟨htr, hob⟩
      rw [hres] at htr hob
      constructor
      · rw [hob]
        show oGetD _ ((jsGet ([] : TrMap) ctx).bind _) = _
        rw [jsGet]
        show oGetD _ none = _
        rw [oGetD_none_right]
      · rw [htr]
        show oGetD _ ((jsGet ([] : TrMap) ctx).bind _) = _
        rw [jsGet]
        show oGetD _ none = _
        rw [oGetD_none_right]

theorem hasRangeViol_cons (tok : Entry) (rest : List Entry) (st : Bool × Nat) :
    hasRangeViol (tok :: rest) st ↔
      (rangeViol tok (hdrStep st tok).2 ∨ hasRangeViol rest (hdrStep st tok)) := by
  constructor
  · rintro ⟨i, hlen, hv⟩
    match i with
    | 0 =>
      left
      rw [List.getElem_cons_zero] at hv
      rw [List.take_succ_cons, List.take_zero] at hv
      exact hv
    | i' + 1 =>
      right
      rw [List.getElem_cons_succ] at hv
      rw [List.take_succ_cons] at hv
      refine ⟨i', by simpa using hlen, ?_⟩
      rw [npThrough] at hv ⊢
      rw [List.foldl_cons] at hv
      exact hv
  · rintro (hv | ⟨i', hlen, hv⟩)
    · exact ⟨0, by simp, by
        rw [List.getElem_cons_zero, List.take_succ_cons, List.take_zero]
        exact hv⟩
    · refine ⟨i' + 1, by simpa using hlen, ?_⟩
      rw [List.getElem_cons_succ, List.take_succ_cons]
      rw [npThrough, List.foldl_cons]
      exact hv

theorem hdrStep_obsolete {tok : Entry} (ho : tok.obsolete = true)
    (st : Bool × Nat) : hdrStep st tok = st := by
  rw [hdrStep, if_neg (by rw [ho]; simp)]

theorem normHnp_hdrStep {t : Table} {tok : Entry} (ho : tok.obsolete = false)
    (np : Nat) :
    (normHnp t tok np).2 = (hdrStep (t.headers.isSome, np) tok).2 ∧
    (normHnp t tok np).1.isSome = (hdrStep (t.headers.isSome, np) tok).1 := by
  rw [normHnp, hdrStep]
  by_cases hcond : t.headers.isNone = true ∧ tok.msgctxt = "" ∧ tok.msgid = ""
  · rw [if_pos hcond, if_pos ?hc]
    · exact ⟨rfl, rfl⟩
    · refine ⟨?_, ho, hcond.2⟩
      show ¬ (t.headers.isSome = true)
      rcases hth : t.headers with _ | hs
      · simp
      · rw [hth] at hcond
        simp at hcond
  · rw [if_neg hcond, if_neg ?hc2]
    · exact ⟨rfl, rfl⟩
    · rintro ⟨hns, _, hc1, hc2⟩
      refine hcond ⟨?_, hc1, hc2⟩
      rcases hth : t.headers with _ | hs
      · rfl
      · rw [hth] at hns
        simp at hns

theorem validateToken_fresh_none {tok : Entry} {m : List (String × Entry)}
    {ctx : String} {np : Nat} (hdup : (jsGet m tok.msgid).isSome = false)
    (hnv : ¬ ((tok.msgid_plural ≠ "" ∧ tok.msgstr.length ≠ np) ∨
      (tok.msgid_plural = "" ∧ tok.msgstr.length ≠ 1))) :
    validateToken true tok m ctx np = none := by
  rw [validateToken, if_neg (by simp), if_neg (by rw [hdup]; simp),
    if_neg (fun hc => hnv (Or.inl hc)), if_neg (fun hc => hnv (Or.inr hc))]

theorem validateToken_fresh_range {tok : Entry} {m : List (String × Entry)}
    {ctx : String} {np : Nat} (hdup : (jsGet m tok.msgid).isSome = false)
    (hv : (tok.msgid_plural ≠ "" ∧ tok.msgstr.length ≠ np) ∨
      (tok.msgid_plural = "" ∧ tok.msgstr.length ≠ 1)) :
    ∃ e, validateToken true tok m ctx np = some e ∧ e.isRangeErr = true := by
  rw [validateToken, if_neg (by simp), if_neg (by rw [hdup]; simp)]
  by_cases h1 : tok.msgid_plural ≠ "" ∧ tok.msgstr.length ≠ np
  · exact ⟨.pluralRange np tok.msgstr.length tok.msgid_plural ctx,
      by rw [if_pos h1], rfl⟩
  · have h2 : tok.msgid_plural = "" ∧ tok.msgstr.length ≠ 1 := by
      rcases hv with hv | hv
      · exact absurd hv h1
      · exact hv
    exact ⟨.singularRange tok.msgstr.length tok.msgid ctx,
      by rw [if_neg h1, if_pos h2], rfl⟩

/-- Main C5 lemma: with strict validation and pairwise-distinct non-obsolete
keys (fresh w.r.t. the running table), `_normalize` fails with a
`RangeError` exactly when some entry violates its positional count
constraint. -/

theorem normGo_range_iff (tokens : List Entry) :
    ∀ (t : Table) (np : Nat),
      (∀ tok ∈ tokens, tok.obsolete = false →
        jsGet2 t.translations tok.msgctxt tok.msgid = none) →
      (nonObsKeys tokens).Nodup →
      ((∃ e, normGo true tokens t np = .error e ∧ e.isRangeErr = true) ↔
        hasRangeViol tokens (t.headers.isSome, np)) := by
  induction tokens with
  | nil =>
    intro t np _ _
    constructor
    · rintro ⟨e, he, _⟩
      rw [normGo] at he
      simp at he
    · rintro ⟨i, h, _⟩
      simp at h
  | cons tok rest ih =>
    intro t np hfresh hnd
    rw [hasRangeViol_cons]
    by_cases ho : tok.obsolete
    · have hstep : hdrStep (t.headers.isSome, np) tok = (t.headers.isSome, np) :=
        hdrStep_obsolete (by simpa using ho) _

      rw [hstep, normGo, if_pos ho]
      have hfc : nonObsKeys (tok :: rest) = nonObsKeys rest := by
        rw [nonObsKeys, nonObsKeys, List.filter_cons_of_neg (by simp [ho])]
      rw [hfc] at hnd
      have hiff := ih
        { t with obsolete := jsSetDeep t.obsolete tok.msgctxt tok.msgid (clearObs tok) }
        np (fun tok' hm hobs => hfresh tok' (by simp [hm]) hobs) hnd
      rw [hiff]
      constructor
      · intro h
        right
        exact h
      · rintro (hv | h)
        · rcases hv with ⟨hobs, _⟩
          rw [hobs] at ho
          simp at ho
        · exact h
    · have ho' : tok.obsolete = false := by simpa using ho
      rw [normGo, if_neg ho]
      have hdupF : (jsGet ((jsGet t.translations tok.msgctxt).getD [])
          tok.msgid).isSome = false := by
        have hf := hfresh tok (by simp) ho'
        rw [jsGet2] at hf
        cases hg : jsGet t.translations tok.msgctxt with
        | none =>
          simp only [Option.getD_none]
          rw [jsGet]
          rfl
        | some inner =>
          rw [hg, Option.some_bind] at hf
          simp only [Option.getD_some]
          rw [hf]
          rfl
      have hnp2 := (normHnp_hdrStep (t := t) ho' np).1
      have hnp1 := (normHnp_hdrStep (t := t) ho' np).2
      by_cases hviol : (tok.msgid_plural ≠ "" ∧ tok.msgstr.length ≠ (normHnp t tok np).2) ∨
          (tok.msgid_plural = "" ∧ tok.msgstr.length ≠ 1)
      · obtain ⟨e, hval, hrange⟩ := validateToken_fresh_range hdupF hviol
        rw [hval]
        constructor
        · intro _
          left
          rw [rangeViol, ← hnp2]
          exact ⟨ho', hviol⟩
        · intro _
          exact ⟨e, rfl, hrange⟩
      · have hval := @validateToken_fresh_none _ _ tok.msgctxt _ hdupF hviol
        rw [hval]
        have hV0 : ¬ rangeViol tok (hdrStep (t.headers.isSome, np) tok).2 := by
          rw [rangeViol, ← hnp2]
          rintro ⟨_, hv⟩
          exact hviol hv
        have hfc : nonObsKeys (tok :: rest) =
            (tok.msgctxt, tok.msgid) :: nonObsKeys rest := by
          rw [nonObsKeys, nonObsKeys, List.filter_cons_of_pos (by simp [ho']),
            List.map_cons]
        rw [hfc] at hnd
        have hkeyNotin := (List.nodup_cons.mp hnd).1
        have hndrest := (List.nodup_cons.mp hnd).2
        have hfresh' : ∀ tok' ∈ rest, tok'.obsolete = false →
            jsGet2 (jsSetDeep t.translations tok.msgctxt tok.msgid tok)
              tok'.msgctxt tok'.msgid = none := by
          intro tok' hm hobs
          rw [jsGet2_jsSetDeep]
          rw [if_neg ?hne]
          · exact hfresh tok' (by simp [hm]) hobs
          · rintro ⟨hc, hi⟩
            apply hkeyNotin
            have : (tok'.msgctxt, tok'.msgid) ∈ nonObsKeys rest := by
              rw [nonObsKeys]
              exact List.mem_map_of_mem _
                (List.mem_filter.mpr ⟨hm, by simp [hobs]⟩)
            rw [hc, hi] at this
            exact this
        have hiff := ih
          { t with translations := jsSetDeep t.translations tok.msgctxt tok.msgid tok,
                   headers := (normHnp t tok np).1 }
          (normHnp t tok np).2 hfresh' hndrest
        have hstate : (((normHnp t tok np).1).isSome, (normHnp t tok np).2) =
            hdrStep (t.headers.isSome, np) tok := by
          rcases hds : hdrStep (t.headers.isSome, np) tok with ⟨b, n⟩
          rw [hds] at hnp1 hnp2
          rw [hnp1, hnp2]
        rw [hiff]
        show hasRangeViol rest (((normHnp t tok np).1).isSome, (normHnp t tok np).2) ↔ _
        rw [hstate]
        constructor
        · intro h
          right
          exact h
        · rintro (hv | h)
          · exact absurd hv hV0
          · exact h

/-- C5 (amended): with strict validation on and all non-obsolete entry keys
pairwise distinct (so no Duplicate error fires first), parsing fails with a
Range error if and only if some non-obsolete entry violates its count
constraint against the positional plural count: 1 for entries up to and
excluding the first header entry, and the value parsed from that header
entry's `Plural-Forms` (regex `nplurals\s*=\s*(\d+)`, falling back to the
previous value when absent, non-matching, or parsing to 0) from the header
entry on. -/

theorem normalize_plural_validation (cs : String) (tokens : List Entry)
    (hnd : (nonObsKeys tokens).Nodup) :
    (∃ e, normalize cs true tokens = .error e ∧ e.isRangeErr = true) ↔
      hasRangeViol tokens (false, 1) := by
  have hiff := normGo_range_iff tokens
    { charset := cs, headers := none, translations := [], obsolete := [] } 1
    (fun tok _ _ => rfl) hnd
  constructor
  · rintro ⟨e, he, hr⟩
    rw [normalize] at he
    have hgoerr : normGo true tokens
        { charset := cs, headers := none, translations := [], obsolete := [] } 1 =
        .error e := by
      cases hgo : normGo true tokens
          { charset := cs, headers := none, translations := [], obsolete := [] } 1 with
      | ok r => rw [hgo] at he; simp [Except.map] at he
      | error e' =>
        rw [hgo] at he
        have he' : e' = e := by simpa [Except.map] using he
        rw [← he']
    exact hiff.mp ⟨e, hgoerr, hr⟩
  · intro hv
    obtain ⟨e, he, hr⟩ := hiff.mpr hv
    exact ⟨e, by rw [normalize, he]; rfl, hr⟩

/-- C5 (counterexample): with N = 3 taken from the `Plural-Forms` header as
the claim prescribes, no entry of `c5CexToks` violates the claim's
condition, yet strict parsing fails with a Range error: the plural entry
precedes the header, so the code validates it against the running default
nplurals = 1 rather than the header's 3. -/

theorem normalize_plural_positional_counterexample :
    normalize "utf-8" true c5CexToks = .error (.pluralRange 1 3 "xs" "") ∧
    (∀ tok ∈ c5CexToks, ¬ rangeViol tok 3) := by decide

/-- Witness for the amended C5 theorem at a concrete input. -/

theorem normalize_plural_validation_witness :
    (nonObsKeys c5WitToks).Nodup ∧
    ((∃ e, normalize "utf-8" true c5WitToks = .error e ∧ e.isRangeErr = true) ↔
      hasRangeViol c5WitToks (false, 1)) :=
  ⟨by decide, normalize_plural_validation "utf-8" c5WitToks (by decide)⟩

/-- Witness for the C8 theorem at a concrete input (both entries share
msgid "k"; validation is on). -/

theorem normalize_obsolete_isolation_witness :
    isOkE (normalize "utf-8" true c8WitToks) =
      isOkE (normalize "utf-8" true (c8WitToks.filter (fun tok => !tok.obsolete))) ∧
    (∀ t, normalize "utf-8" true c8WitToks = .ok t → ∀ ctx id,
      jsGet2 t.obsolete ctx id = lastPut c8WitToks true ctx id ∧
      jsGet2 t.translations ctx id = lastPut c8WitToks false ctx id) :=
  normalize_obsolete_isolation "utf-8" true c8WitToks

/-- C9: the claim says every present comment field is rendered and absent
fields are merely skipped.  The code is wrong: the `return` that was meant
to skip one field (a `forEach`-style early return) exits the whole method,
so a comment block with only `translator` set renders nothing at all —
comments are rendered only when all five fields are present. -/

theorem drawComments_requires_all_fields :
    drawComments c9OnlyTranslator "\n" = none ∧
    drawComments c9AllFields "\n" = some "# t\n#: r\n#. e\n#, f\n#| p" := by decide

theorem bget_set_eq {buf : List Nat} {i v : Nat} (h : i < buf.length) :
    bget (buf.set i v) i = v := by
  simp [bget, List.getD, List.getElem?_set_self', h]

theorem bget_set_ne {buf : List Nat} {i j v : Nat} (h : i ≠ j) :
    bget (buf.set i v) j = bget buf j := by
  simp [bget, List.getD, List.getElem?_set_ne h]

theorem writeU32LE_length (buf : List Nat) (v pos : Nat) :
    (writeU32LE buf v pos).length = buf.length := by
  simp [writeU32LE]

theorem copyBytes_length (src : List Nat) (buf : List Nat) (pos : Nat) :
    (copyBytes src buf pos).length = buf.length := by
  induction src generalizing buf pos with
  | nil => rfl
  | cons b rest ih => simp [copyBytes, ih]

theorem writeU32LE_preserve {buf : List Nat} {v pos q : Nat}
    (h : q < pos ∨ pos + 4 ≤ q) :
    bget (writeU32LE buf v pos) q = bget buf q := by
  rw [writeU32LE, bget_set_ne (by omega), bget_set_ne (by omega),
    bget_set_ne (by omega), bget_set_ne (by omega)]

theorem writeU32LE_read {buf : List Nat} {v pos : Nat}
    (hb : pos + 4 ≤ buf.length) (hv : v < 4294967296) :
    readU32LEat (writeU32LE buf v pos) pos = v := by
  have b0 : bget (writeU32LE buf v pos) pos = v % 256 := by
    rw [writeU32LE, bget_set_ne (by omega), bget_set_ne (by omega),
      bget_set_ne (by omega)]
    exact bget_set_eq (by omega)
  have b1 : bget (writeU32LE buf v pos) (pos + 1) = v / 256 % 256 := by
    rw [writeU32LE, bget_set_ne (by omega), bget_set_ne (by omega)]
    exact bget_set_eq (by simp; omega)
  have b2 : bget (writeU32LE buf v pos) (pos + 2) = v / 65536 % 256 := by
    rw [writeU32LE, bget_set_ne (by omega)]
    exact bget_set_eq (by simp; omega)
  have b3 : bget (writeU32LE buf v pos) (pos + 3) = v / 16777216 % 256 := by
    rw [writeU32LE]
    exact bget_set_eq (by simp; omega)
  rw [readU32LEat, b0, b1, b2, b3]
  omega

theorem copyBytes_preserve {src buf : List Nat} {pos q : Nat}
    (h : q < pos ∨ pos + src.length ≤ q) :
    bget (copyBytes src buf pos) q = bget buf q := by
  induction src generalizing buf pos with
  | nil => rfl
  | cons b rest ih =>
    simp only [copyBytes]
    rw [ih (by simp at h; omega), bget_set_ne (by simp at h; omega)]

theorem copyBytes_read {src buf : List Nat} {pos j : Nat}
    (hj : j < src.length) (hb : pos + src.length ≤ buf.length) :
    bget (copyBytes src buf pos) (pos + j) = src.getD j 0 := by
  induction src generalizing buf pos j with
  | nil => simp at hj
  | cons b rest ih =>
    simp only [copyBytes]
    match j with
    | 0 =>
      rw [copyBytes_preserve (by omega)]
      simpa using @bget_set_eq buf pos b (by simp at hb; omega)
    | j' + 1 =>
      have : pos + (j' + 1) = (pos + 1) + j' := by omega
      rw [this]
      rw [ih (by simpa using by simp at hj; omega) (by simp at hb ⊢; omega)]
      rfl

theorem readU32LEat_congr {b1 b2 : List Nat} {pos : Nat}
    (h : ∀ k, k < 4 → bget b1 (pos + k) = bget b2 (pos + k)) :
    readU32LEat b1 pos = readU32LEat b2 pos := by
  have h0 := h 0 (by omega)
  have h1 := h 1 (by omega)
  have h2 := h 2 (by omega)
  have h3 := h 3 (by omega)
  simp only [Nat.add_zero] at h0
  rw [readU32LEat, readU32LEat, h0, h1, h2, h3]

theorem sumLen1_cons (s : List Nat) (rest : List (List Nat)) :
    sumLen1 (s :: rest) = (s.length + 1) + sumLen1 rest := by
  simp [sumLen1]

theorem sumLen1_take_bound {strs : List (List Nat)} {j : Nat}
    (hj : j < strs.length) :
    sumLen1 (strs.take j) + ((strs.getD j []).length + 1) ≤ sumLen1 strs := by
  induction strs generalizing j with
  | nil => simp at hj
  | cons s rest ih =>
    match j with
    | 0 => simp [sumLen1, sumLen1_cons]
    | j' + 1 =>
      have h := ih (j := j') (by simpa using hj)
      simp only [List.take_succ_cons, sumLen1_cons, List.getD_cons_succ]
      omega

theorem moLoop_length (base : Nat) (strs : List (List Nat)) (i : Nat)
    (buf : List Nat) (cur : Nat) :
    (moLoop base strs i buf cur).1.length = buf.length := by
  induction strs generalizing i buf cur with
  | nil => rfl
  | cons s rest ih =>
    simp only [moLoop]
    rw [ih]
    simp [writeU32LE_length, copyBytes_length]

theorem moLoop_cursor (base : Nat) (strs : List (List Nat)) (i : Nat)
    (buf : List Nat) (cur : Nat) :
    (moLoop base strs i buf cur).2 = cur + sumLen1 strs := by
  induction strs generalizing i buf cur with
  | nil => simp [moLoop, sumLen1]
  | cons s rest ih =>
    simp only [moLoop]
    rw [ih, sumLen1_cons]
    omega

theorem moLoop_preserve {base : Nat} {strs : List (List Nat)} {i : Nat}
    {buf : List Nat} {cur q : Nat}
    (h1 : q < base + 8 * i ∨ base + 8 * (i + strs.length) ≤ q)
    (h2 : q < cur ∨ cur + sumLen1 strs ≤ q) :
    bget (moLoop base strs i buf cur).1 q = bget buf q := by
  induction strs generalizing i buf cur with
  | nil => rfl
  | cons s rest ih =>
    have hs := sumLen1_cons s rest
    simp only [List.length_cons] at h1
    have h1' : q < base + 8 * (i + 1) ∨ base + 8 * ((i + 1) + rest.length) ≤ q := by
      omega
    have h2' : q < cur + s.length + 1 ∨
        (cur + s.length + 1) + sumLen1 rest ≤ q := by
      omega
    have hq_body : q < cur ∨ cur + s.length + 1 ≤ q := by omega
    have hq_tab : q < base + 8 * i ∨ base + 8 * i + 8 ≤ q := by omega
    simp only [moLoop]
    rw [ih h1' h2']
    rw [bget_set_ne (by omega)]
    rw [writeU32LE_preserve (by omega)]
    rw [writeU32LE_preserve (by omega)]
    rw [copyBytes_preserve (by omega)]

theorem moLoop_table {base : Nat} {strs : List (List Nat)} {i : Nat}
    {buf : List Nat} {cur : Nat}
    (hdisj : base + 8 * (i + strs.length) ≤ cur)
    (hfit : cur + sumLen1 strs ≤ buf.length)
    (h32 : buf.length < 4294967296) :
    ∀ j, j < strs.length →
      readU32LEat (moLoop base strs i buf cur).1 (base + (i + j) * 8)
          = (strs.getD j []).length ∧
      readU32LEat (moLoop base strs i buf cur).1 (base + (i + j) * 8 + 4)
          = cur + sumLen1 (strs.take j) ∧
      (∀ m, m < (strs.getD j []).length →
        bget (moLoop base strs i buf cur).1 (cur + sumLen1 (strs.take j) + m)
          = (strs.getD j []).getD m 0) ∧
      bget (moLoop base strs i buf cur).1
          (cur + sumLen1 (strs.take j) + (strs.getD j []).length) = 0 := by
  induction strs generalizing i buf cur with
  | nil => intro j hj; simp at hj
  | cons s rest ih =>
    intro j hj
    have hs := sumLen1_cons s rest
    simp only [List.length_cons] at hdisj
    have hlen4 : ((writeU32LE (writeU32LE (copyBytes s buf cur) s.length
        (base + i * 8)) cur (base + i * 8 + 4)).set
        (cur + s.length) 0).length = buf.length := by
      simp [writeU32LE_length, copyBytes_length]
    match j with
    | 0 =>
      simp only [List.getD_cons_zero, List.take_zero, sumLen1, List.map_nil,
        List.sum_nil, Nat.add_zero]
      simp only [moLoop]
      -- preservation of the `i`-th slot and of the body at `cur` through
      -- the recursive call
      have hp : ∀ q, (q < base + 8 * (i + 1) ∨
            base + 8 * ((i + 1) + rest.length) ≤ q) →
          (q < cur + s.length + 1 ∨
            (cur + s.length + 1) + sumLen1 rest ≤ q) →
          bget (moLoop base rest (i + 1)
              ((writeU32LE (writeU32LE (copyBytes s buf cur) s.length
                (base + i * 8)) cur (base + i * 8 + 4)).set
                (cur + s.length) 0)
              (cur + s.length + 1)).1 q =
            bget ((writeU32LE (writeU32LE (copyBytes s buf cur) s.length
                (base + i * 8)) cur (base + i * 8 + 4)).set
                (cur + s.length) 0) q :=
        fun q hq1 hq2 => moLoop_preserve hq1 hq2
      refine ⟨?_, ?_, ?_, ?_⟩
      · rw [@readU32LEat_congr _ ((writeU32LE (writeU32LE
          (copyBytes s buf cur) s.length (base + i * 8)) cur
          (base + i * 8 + 4)).set (cur + s.length) 0) _
          (fun k hk => hp _ (by omega) (by omega))]
        have e1 : ∀ k, k < 4 →
            bget ((writeU32LE (writeU32LE (copyBytes s buf cur) s.length
              (base + i * 8)) cur (base + i * 8 + 4)).set
              (cur + s.length) 0) (base + i * 8 + k) =
            bget (writeU32LE (copyBytes s buf cur) s.length (base + i * 8))
              (base + i * 8 + k) := by
          intro k hk
          rw [bget_set_ne (by omega), writeU32LE_preserve (by omega)]
        rw [readU32LEat_congr e1]
        exact writeU32LE_read (by rw [copyBytes_length]; omega) (by omega)
      · rw [@readU32LEat_congr _ ((writeU32LE (writeU32LE
          (copyBytes s buf cur) s.length (base + i * 8)) cur
          (base + i * 8 + 4)).set (cur + s.length) 0) _
          (fun k hk => hp _ (by omega) (by omega))]
        have e1 : ∀ k, k < 4 →
            bget ((writeU32LE (writeU32LE (copyBytes s buf cur) s.length
              (base + i * 8)) cur (base + i * 8 + 4)).set
              (cur + s.length) 0) (base + i * 8 + 4 + k) =
            bget (writeU32LE (writeU32LE (copyBytes s buf cur) s.length
              (base + i * 8)) cur (base + i * 8 + 4)) (base + i * 8 + 4 + k) := by
          intro k hk
          rw [bget_set_ne (by omega)]
        rw [readU32LEat_congr e1]
        exact writeU32LE_read
          (by rw [writeU32LE_length, copyBytes_length]; omega) (by omega)
      · intro m hm
        rw [hp _ (by omega) (by omega)]
        rw [bget_set_ne (by omega)]
        rw [writeU32LE_preserve (by omega)]
        rw [writeU32LE_preserve (by omega)]
        exact copyBytes_read hm (by omega)
      · rw [hp _ (by omega) (by omega)]
        exact bget_set_eq
          (by rw [writeU32LE_length, writeU32LE_length, copyBytes_length]; omega)
    | j' + 1 =>
      have hj' : j' < rest.length := by simpa using hj
      have hres := @ih (i + 1)
        ((writeU32LE (writeU32LE (copyBytes s buf cur) s.length
          (base + i * 8)) cur (base + i * 8 + 4)).set (cur + s.length) 0)
        (cur + s.length + 1)
        (by omega) (by rw [hlen4]; omega) (by rw [hlen4]; omega) j' hj'
      obtain ⟨ha, hb, hc, hd⟩ := hres
      have epos : base + ((i + 1) + j') * 8 = base + (i + (j' + 1)) * 8 := by
        ring
      have ebody : (cur + s.length + 1) + sumLen1 (rest.take j') =
          cur + sumLen1 ((s :: rest).take (j' + 1)) := by
        rw [List.take_succ_cons, sumLen1_cons]
        omega
      simp only [moLoop]
      refine ⟨?_, ?_, ?_, ?_⟩
      · rw [← epos]
        simpa using ha
      · rw [← epos, ← ebody]
        simpa using hb
      · intro m hm
        rw [← ebody]
        simp only [List.getD_cons_succ] at hm ⊢
        exact hc m hm
      · rw [← ebody]
        simpa using hd

theorem readU32LEat_write_ne {buf : List Nat} {v pos q : Nat}
    (h : q + 4 ≤ pos ∨ pos + 4 ≤ q) :
    readU32LEat (writeU32LE buf v pos) q = readU32LEat buf q :=
  readU32LEat_congr (fun k hk => writeU32LE_preserve (by omega))

theorem extractBytes_eq {buf : List Nat} {pos : Nat} {xs : List Nat}
    (h : ∀ m, m < xs.length → bget buf (pos + m) = xs.getD m 0) :
    extractBytes buf pos xs.length = xs := by
  apply List.ext_getElem
  · simp [extractBytes]
  · intro m h1 h2
    simp only [extractBytes, List.getElem_map, List.getElem_range]
    rw [h m h2]
    exact List.getD_eq_getElem xs 0 h2

theorem moHeader_length (n total : Nat) :
    (moHeader n total).length = total := by
  simp [moHeader, writeU32LE_length]

theorem moHeader_fields (n total : Nat) (hn : 28 + 16 * n ≤ total)
    (h32 : total < 4294967296) :
    readU32LEat (moHeader n total) 0 = MAGIC ∧
    readU32LEat (moHeader n total) 4 = 0 ∧
    readU32LEat (moHeader n total) 8 = n ∧
    readU32LEat (moHeader n total) 12 = 28 ∧
    readU32LEat (moHeader n total) 16 = 28 + 8 * n ∧
    readU32LEat (moHeader n total) 20 = 0 ∧
    readU32LEat (moHeader n total) 24 = 28 + 16 * n := by
  have hM : MAGIC < 4294967296 := by norm_num [MAGIC]
  refine ⟨?_, ?_, ?_, ?_, ?_, ?_, ?_⟩
  · rw [moHeader, readU32LEat_write_ne (by omega), readU32LEat_write_ne (by omega),
      readU32LEat_write_ne (by omega), readU32LEat_write_ne (by omega),
      readU32LEat_write_ne (by omega), readU32LEat_write_ne (by omega)]
    exact writeU32LE_read (by simp; omega) hM
  · rw [moHeader, readU32LEat_write_ne (by omega), readU32LEat_write_ne (by omega),
      readU32LEat_write_ne (by omega), readU32LEat_write_ne (by omega),
      readU32LEat_write_ne (by omega)]
    exact writeU32LE_read (by simp [writeU32LE_length]; omega) (by omega)
  · rw [moHeader, readU32LEat_write_ne (by omega), readU32LEat_write_ne (by omega),
      readU32LEat_write_ne (by omega), readU32LEat_write_ne (by omega)]
    exact writeU32LE_read (by simp [writeU32LE_length]; omega) (by omega)
  · rw [moHeader, readU32LEat_write_ne (by omega), readU32LEat_write_ne (by omega),
      readU32LEat_write_ne (by omega)]
    exact writeU32LE_read (by simp [writeU32LE_length]; omega) (by omega)
  · rw [moHeader, readU32LEat_write_ne (by omega), readU32LEat_write_ne (by omega)]
    rw [writeU32LE_read (by simp [writeU32LE_length]; omega) (by omega)]
  · rw [moHeader, readU32LEat_write_ne (by omega)]
    exact writeU32LE_read (by simp [writeU32LE_length]; omega) (by omega)
  · rw [moHeader]
    rw [writeU32LE_read (by simp [writeU32LE_length]; omega) (by omega)]
    omega

/-- Layout of `_build`'s output, over abstract key and value byte lists:
the header words, both tables, both null-terminated contiguous body
regions. -/

theorem build_layout_core {strs1 strs2 : List (List Nat)} {n total : Nat}
    {res : List Nat}
    (hn1 : strs1.length = n) (hn2 : strs2.length = n)
    (htot : total = 28 + 16 * n + sumLen1 strs1 + sumLen1 strs2)
    (h32 : total < 4294967296)
    (hres : res = (moLoop (28 + 8 * n) strs2 0
      (moLoop 28 strs1 0 (moHeader n total) (28 + 16 * n)).1
      (moLoop 28 strs1 0 (moHeader n total) (28 + 16 * n)).2).1) :
    res.length = total ∧
    readU32LEat res 0 = MAGIC ∧ readU32LEat res 4 = 0 ∧
    readU32LEat res 8 = n ∧ readU32LEat res 12 = 28 ∧
    readU32LEat res 16 = 28 + 8 * n ∧ readU32LEat res 20 = 0 ∧
    readU32LEat res 24 = 28 + 16 * n ∧
    (∀ i, i < n →
      readU32LEat res (28 + 8 * i) = (strs1.getD i []).length ∧
      readU32LEat res (28 + 8 * i + 4) = 28 + 16 * n + sumLen1 (strs1.take i) ∧
      (∀ m, m < (strs1.getD i []).length →
        bget res (28 + 16 * n + sumLen1 (strs1.take i) + m)
          = (strs1.getD i []).getD m 0) ∧
      bget res (28 + 16 * n + sumLen1 (strs1.take i) +
        (strs1.getD i []).length) = 0) ∧
    (∀ i, i < n →
      readU32LEat res (28 + 8 * n + 8 * i) = (strs2.getD i []).length ∧
      readU32LEat res (28 + 8 * n + 8 * i + 4)
          = 28 + 16 * n + sumLen1 strs1 + sumLen1 (strs2.take i) ∧
      (∀ m, m < (strs2.getD i []).length →
        bget res (28 + 16 * n + sumLen1 strs1 + sumLen1 (strs2.take i) + m)
          = (strs2.getD i []).getD m 0) ∧
      bget res (28 + 16 * n + sumLen1 strs1 + sumLen1 (strs2.take i) +
        (strs2.getD i []).length) = 0) := by
  subst hres
  have hL1len : (moLoop 28 strs1 0 (moHeader n total) (28 + 16 * n)).1.length
      = total := by rw [moLoop_length, moHeader_length]
  have hcur1 : (moLoop 28 strs1 0 (moHeader n total) (28 + 16 * n)).2
      = 28 + 16 * n + sumLen1 strs1 := by
    rw [moLoop_cursor]
  have hfin : (moLoop (28 + 8 * n) strs2 0
      (moLoop 28 strs1 0 (moHeader n total) (28 + 16 * n)).1
      (moLoop 28 strs1 0 (moHeader n total) (28 + 16 * n)).2).1.length
      = total := by rw [moLoop_length]; exact hL1len
  have hpres28 : ∀ q, q < 28 →
      bget (moLoop (28 + 8 * n) strs2 0
        (moLoop 28 strs1 0 (moHeader n total) (28 + 16 * n)).1
        (moLoop 28 strs1 0 (moHeader n total) (28 + 16 * n)).2).1 q
      = bget (moHeader n total) q := by
    intro q hq
    rw [moLoop_preserve (by omega) (by rw [hcur1]; omega),
      moLoop_preserve (by omega) (by omega)]
  obtain ⟨h0, h4, h8, h12, h16, h20, h24⟩ :=
    moHeader_fields n total (by omega) h32
  have hrd : ∀ p, p + 4 ≤ 28 →
      readU32LEat (moLoop (28 + 8 * n) strs2 0
        (moLoop 28 strs1 0 (moHeader n total) (28 + 16 * n)).1
        (moLoop 28 strs1 0 (moHeader n total) (28 + 16 * n)).2).1 p
      = readU32LEat (moHeader n total) p :=
    fun p hp => readU32LEat_congr (fun k hk => hpres28 _ (by omega))
  refine ⟨hfin, ?_, ?_, ?_, ?_, ?_, ?_, ?_, ?_, ?_⟩
  · rw [hrd 0 (by omega)]; exact h0
  · rw [hrd 4 (by omega)]; exact h4
  · rw [hrd 8 (by omega)]; exact h8
  · rw [hrd 12 (by omega)]; exact h12
  · rw [hrd 16 (by omega)]; exact h16
  · rw [hrd 20 (by omega)]; exact h20
  · rw [hrd 24 (by omega)]; exact h24
  · intro i hi
    have hbound := @sumLen1_take_bound strs1 i (by omega)
    obtain ⟨ha, hb2, hc, hd⟩ :=
      @moLoop_table 28 strs1 0 (moHeader n total) (28 + 16 * n)
        (by omega) (by rw [moHeader_length]; omega)
        (by rw [moHeader_length]; omega) i (by omega)
    rw [show 28 + (0 + i) * 8 = 28 + 8 * i from by ring] at ha hb2
    refine ⟨?_, ?_, ?_, ?_⟩
    · rw [@readU32LEat_congr _
        (moLoop 28 strs1 0 (moHeader n total) (28 + 16 * n)).1 _
        (fun k hk => moLoop_preserve (by omega) (by rw [hcur1]; omega))]
      exact ha
    · rw [@readU32LEat_congr _
        (moLoop 28 strs1 0 (moHeader n total) (28 + 16 * n)).1 _
        (fun k hk => moLoop_preserve (by omega) (by rw [hcur1]; omega))]
      exact hb2
    · intro m hm
      rw [moLoop_preserve (by omega) (by rw [hcur1]; omega)]
      exact hc m hm
    · rw [moLoop_preserve (by omega) (by rw [hcur1]; omega)]
      exact hd
  · intro i hi
    have hbound := @sumLen1_take_bound strs2 i (by omega)
    obtain ⟨ha, hb2, hc, hd⟩ :=
      @moLoop_table (28 + 8 * n) strs2 0
        (moLoop 28 strs1 0 (moHeader n total) (28 + 16 * n)).1
        (moLoop 28 strs1 0 (moHeader n total) (28 + 16 * n)).2
        (by rw [hcur1]; omega) (by rw [hcur1, hL1len]; omega)
        (by rw [hL1len]; omega) i (by omega)
    rw [show 28 + 8 * n + (0 + i) * 8 = 28 + 8 * n + 8 * i from by ring]
      at ha hb2
    refine ⟨ha, ?_, ?_, ?_⟩
    · rw [← hcur1]; exact hb2
    · intro m hm
      rw [← hcur1]
      exact hc m hm
    · rw [← hcur1]; exact hd

/-- C7: for every encoded translation list, the buffer `_build` produces
from `_calculateSize`'s size record has total length
`28 + 16*count + Σ(key length + 1) + Σ(value length + 1)`; its seven
header words are the magic number, revision 0, the count, originals-table
offset 28, translations-table offset `28 + 8*count`, hash size 0 and hash
offset `28 + 16*count`; and for every index the originals table holds the
`i`-th key's length and the offset of its null-terminated body, the bodies
lying contiguously after the hash offset, followed by the translations
table and the value bodies in the same shape.  (Node's `writeUInt32LE`
rejects values of 2^32 and above, hence the size hypothesis.) -/

theorem mo_build_layout (list : List MoItem)
    (h32 : (calculateSize list).total < 4294967296) :
    (build list (calculateSize list)).length =
        28 + 16 * list.length + sumLen1 (list.map (fun x => x.msgid)) +
          sumLen1 (list.map (fun x => x.msgstr)) ∧
    readU32LEat (build list (calculateSize list)) 0 = MAGIC ∧
    readU32LEat (build list (calculateSize list)) 4 = 0 ∧
    readU32LEat (build list (calculateSize list)) 8 = list.length ∧
    readU32LEat (build list (calculateSize list)) 12 = 28 ∧
    readU32LEat (build list (calculateSize list)) 16 = 28 + 8 * list.length ∧
    readU32LEat (build list (calculateSize list)) 20 = 0 ∧
    readU32LEat (build list (calculateSize list)) 24 = 28 + 16 * list.length ∧
    (∀ i, i < list.length →
      readU32LEat (build list (calculateSize list)) (28 + 8 * i)
          = ((list.getD i ⟨[], []⟩).msgid).length ∧
      readU32LEat (build list (calculateSize list)) (28 + 8 * i + 4)
          = origPos list i ∧
      extractBytes (build list (calculateSize list)) (origPos list i)
          ((list.getD i ⟨[], []⟩).msgid).length = (list.getD i ⟨[], []⟩).msgid ∧
      bget (build list (calculateSize list))
          (origPos list i + ((list.getD i ⟨[], []⟩).msgid).length) = 0) ∧
    (∀ i, i < list.length →
      readU32LEat (build list (calculateSize list))
          (28 + 8 * list.length + 8 * i)
          = ((list.getD i ⟨[], []⟩).msgstr).length ∧
      readU32LEat (build list (calculateSize list))
          (28 + 8 * list.length + 8 * i + 4) = transPos list i ∧
      extractBytes (build list (calculateSize list)) (transPos list i)
          ((list.getD i ⟨[], []⟩).msgstr).length = (list.getD i ⟨[], []⟩).msgstr ∧
      bget (build list (calculateSize list))
          (transPos list i + ((list.getD i ⟨[], []⟩).msgstr).length) = 0) := by
  have hmap1 : ∀ i, i < list.length →
      (list.map (fun x => x.msgid)).getD i [] = (list.getD i ⟨[], []⟩).msgid := by
    intro i hi
    rw [List.getD_eq_getElem _ _ (by simpa using hi), List.getElem_map,
      List.getD_eq_getElem _ _ hi]
  have hmap2 : ∀ i, i < list.length →
      (list.map (fun x => x.msgstr)).getD i [] = (list.getD i ⟨[], []⟩).msgstr := by
    intro i hi
    rw [List.getD_eq_getElem _ _ (by simpa using hi), List.getElem_map,
      List.getD_eq_getElem _ _ hi]
  have htotE : (calculateSize list).total =
      28 + 16 * list.length + sumLen1 (list.map (fun x => x.msgid)) +
        sumLen1 (list.map (fun x => x.msgstr)) := by
    show 4 + 4 + 4 + 4 + 4 + 4 + 4 + (4 + 4) * list.length +
      (4 + 4) * list.length + sumLen1 (list.map (fun x => x.msgid)) +
      sumLen1 (list.map (fun x => x.msgstr)) = _
    ring
  obtain ⟨hl, h0, h4, h8, h12, h16, h20, h24, horig, htrans⟩ :=
    @build_layout_core (list.map (fun x => x.msgid))
      (list.map (fun x => x.msgstr)) list.length (calculateSize list).total
      (build list (calculateSize list)) (by simp) (by simp) htotE h32 (by rfl)
  refine ⟨by rw [hl, htotE], h0, h4, h8, h12, h16, h20, h24, ?_, ?_⟩
  · intro i hi
    obtain ⟨ha, hb2, hc, hd⟩ := horig i hi
    rw [hmap1 i hi] at ha hc hd
    refine ⟨ha, ?_, ?_, ?_⟩
    · rw [origPos]; exact hb2
    · apply extractBytes_eq
      intro m hm
      rw [origPos]
      exact hc m hm
    · rw [origPos]; exact hd
  · intro i hi
    obtain ⟨ha, hb2, hc, hd⟩ := htrans i hi
    rw [hmap2 i hi] at ha hc hd
    refine ⟨ha, ?_, ?_, ?_⟩
    · rw [transPos]; exact hb2
    · apply extractBytes_eq
      intro m hm
      rw [transPos]
      exact hc m hm
    · rw [transPos]; exact hd

/-- Witness for the C7 theorem at a concrete two-item list. -/

theorem mo_build_layout_witness :
    (calculateSize c7WitList).total < 4294967296 ∧
    ((build c7WitList (calculateSize c7WitList)).length =
        28 + 16 * c7WitList.length +
          sumLen1 (c7WitList.map (fun x => x.msgid)) +
          sumLen1 (c7WitList.map (fun x => x.msgstr)) ∧
    readU32LEat (build c7WitList (calculateSize c7WitList)) 0 = MAGIC ∧
    readU32LEat (build c7WitList (calculateSize c7WitList)) 4 = 0 ∧
    readU32LEat (build c7WitList (calculateSize c7WitList)) 8 = c7WitList.length ∧
    readU32LEat (build c7WitList (calculateSize c7WitList)) 12 = 28 ∧
    readU32LEat (build c7WitList (calculateSize c7WitList)) 16 =
      28 + 8 * c7WitList.length ∧
    readU32LEat (build c7WitList (calculateSize c7WitList)) 20 = 0 ∧
    readU32LEat (build c7WitList (calculateSize c7WitList)) 24 =
      28 + 16 * c7WitList.length ∧
    (∀ i, i < c7WitList.length →
      readU32LEat (build c7WitList (calculateSize c7WitList)) (28 + 8 * i)
          = ((c7WitList.getD i ⟨[], []⟩).msgid).length ∧
      readU32LEat (build c7WitList (calculateSize c7WitList)) (28 + 8 * i + 4)
          = origPos c7WitList i ∧
      extractBytes (build c7WitList (calculateSize c7WitList))
          (origPos c7WitList i) ((c7WitList.getD i ⟨[], []⟩).msgid).length
          = (c7WitList.getD i ⟨[], []⟩).msgid ∧
      bget (build c7WitList (calculateSize c7WitList))
          (origPos c7WitList i + ((c7WitList.getD i ⟨[], []⟩).msgid).length) = 0) ∧
    (∀ i, i < c7WitList.length →
      readU32LEat (build c7WitList (calculateSize c7WitList))
          (28 + 8 * c7WitList.length + 8 * i)
          = ((c7WitList.getD i ⟨[], []⟩).msgstr).length ∧
      readU32LEat (build c7WitList (calculateSize c7WitList))
          (28 + 8 * c7WitList.length + 8 * i + 4) = transPos c7WitList i ∧
      extractBytes (build c7WitList (calculateSize c7WitList))
          (transPos c7WitList i) ((c7WitList.getD i ⟨[], []⟩).msgstr).length
          = (c7WitList.getD i ⟨[], []⟩).msgstr ∧
      bget (build c7WitList (calculateSize c7WitList))
          (transPos c7WitList i + ((c7WitList.getD i ⟨[], []⟩).msgstr).length)
          = 0)) :=
  ⟨by decide, mo_build_layout c7WitList (by decide)⟩

/-- C6 (amended): for buffers of at least 4 bytes — so that
`readUInt32LE(0)` does not throw — MO decoding returns the sentinel
`false` if and only if the 32-bit word at offset 0 matches the magic
number in neither endianness; and an empty-but-valid MO file decodes to a
table (with the default charset and empty headers and translations), not
to the sentinel. -/

theorem moparse_sentinel_iff_magic (iconv : String → List Nat → List Char)
    (buf : List Nat) (cs : String) (h4 : 4 ≤ buf.length) :
    (moParse iconv buf cs = .ok .sentinel ↔
      (readU32LEat buf 0 ≠ MAGIC ∧ readU32BEat buf 0 ≠ MAGIC)) ∧
    moParse iconv emptyMoBuf cs = .ok (.table (c6EmptyTable cs)) := by
  constructor
  · rw [moParse, if_neg (by omega)]
    by_cases hle : readU32LEat buf 0 = MAGIC
    · rw [if_pos hle]
      constructor
      · intro hco
        cases hbody : moParseBody iconv true buf cs <;>
          simp [hbody, Except.map] at hco
      · rintro ⟨hn, _⟩
        exact absurd hle hn
    · rw [if_neg hle]
      by_cases hbe : readU32BEat buf 0 = MAGIC
      · rw [if_pos hbe]
        constructor
        · intro hco
          cases hbody : moParseBody iconv false buf cs <;>
            simp [hbody, Except.map] at hco
        · rintro ⟨_, hn⟩
          exact absurd hbe hn
      · rw [if_neg hbe]
        exact ⟨fun _ => ⟨hle, hbe⟩, fun _ => rfl⟩
  · rfl

/-- Counterexample to C6 as stated: on the empty buffer the magic matches
in neither endianness, yet decoding does not return the sentinel — it
throws (Node's `readUInt32LE(0)` RangeError). -/

theorem moparse_short_buffer_throws :
    readU32LEat [] 0 ≠ MAGIC ∧ readU32BEat [] 0 ≠ MAGIC ∧
    moParse c6Iconv [] "iso-8859-1" = .error .rangeError := by decide

/-- Witness for the C6 theorem at a concrete 4-byte buffer. -/

theorem moparse_sentinel_iff_magic_witness :
    4 ≤ c6WitBuf.length ∧
    ((moParse c6Iconv c6WitBuf "iso-8859-1" = .ok .sentinel ↔
      (readU32LEat c6WitBuf 0 ≠ MAGIC ∧ readU32BEat c6WitBuf 0 ≠ MAGIC)) ∧
    moParse c6Iconv emptyMoBuf "iso-8859-1" =
      .ok (.table (c6EmptyTable "iso-8859-1"))) :=
  ⟨by decide, moparse_sentinel_iff_magic c6Iconv c6WitBuf "iso-8859-1" (by decide)⟩

/-- C1: the round-trip property cannot hold — encoding a table with any
translation entry does not produce a buffer at all: `_generateList`
reaches `encoding.convert(key, charset)` where `encoding` is the
default-exported `convert` function (which has no `convert` property),
so the call throws a TypeError.  The first conjunct checks that the
witness table is in the claim's domain (its entry's translation list
holds a non-empty string). -/

theorem mocompile_typeerror_on_entries :
    (c1Entry.msgstr.any (fun s => s ≠ "")) = true ∧
    moCompile c1Iconv c1Table = .error .typeError := by decide

end GtP
